import Mathlib

/-!
Verification of the `MultiIndexedTree` data structure from `src/Tree.rs`
(duplicated in `src/lib.rs`).

Modelling choices (shallow embedding):

* `Rc<Node>` graphs are represented by an arena: node ids are natural
  numbers, allocated consecutively (`Node::new` allocates at the current
  arena size), and the arena is a function `Nat → Option Node`.  Resolving
  the `Weak` parent back-reference reads the arena; the tree operations
  never resolve the parent of a deallocated node, so this is faithful.
* `HashMap` is modelled by an association list whose `insert` first erases
  the key (overwrite semantics).  Only lookup-observable behaviour of the
  maps is used by the source code, except for `keys()` iteration in
  `dijkstra_shortest_paths`, which only initialises every key to the same
  value, so the association-list order is irrelevant there as well.
* The recursion in `remove_descendants` (and the iterator loops) is
  modelled with fuel.  In every tree reachable through the public API a
  child's id strictly exceeds its parent's id, so any chain of children
  has length at most the arena size and fuel `size` is never exhausted;
  this is proved below and used in the theorems.
-/

/-- A tree node, mirroring `struct Node<K, T>`: children ids in order, the
cached position in the parent's children vector, the parent back-reference,
the value and the immutable key. -/
structure Node (K T : Type) where
  children : List Nat
  index : Nat
  parent : Option Nat
  value : T
  key : K
deriving DecidableEq

/-- The heap of `Rc<Node>` allocations, addressed by allocation order. -/
def Arena (K T : Type) : Type := Nat → Option (Node K T)

variable {K T : Type}

/-- Lookup in an association list, modelling `HashMap::get`. -/
def mapLookup [DecidableEq K] {A : Type} (m : List (K × A)) (k : K) : Option A :=
  match m with
  | [] => none
  | (k', v) :: rest => if k' = k then some v else mapLookup rest k

/-- Remove a key from an association list, modelling `HashMap::remove`
(the returned value is unused by the source code). -/
def mapErase [DecidableEq K] {A : Type} (m : List (K × A)) (k : K) : List (K × A) :=
  match m with
  | [] => []
  | e :: rest => if e.1 = k then mapErase rest k else e :: mapErase rest k

/-- Overwriting insertion, modelling `HashMap::insert`. -/
def mapInsert [DecidableEq K] {A : Type} (m : List (K × A)) (k : K) (v : A) : List (K × A) :=
  (k, v) :: mapErase m k

/-- Apply `f` to the node stored at id `i`, modelling a `RefCell` write
through one of the node's cells. -/
def upd (a : Arena K T) (i : Nat) (f : Node K T → Node K T) : Arena K T :=
  fun j => if j = i then (a i).map f else a j

/-- The children list of the node at `i` (empty if `i` is unallocated). -/
def childrenOf (a : Arena K T) (i : Nat) : List Nat :=
  ((a i).map Node.children).getD []

/-- `Vec::swap_remove(i)`: replace position `i` by the last element and pop.
(The source panics when `i` is out of bounds; well-formed trees never hit
that case, and the model then leaves the list unchanged.) -/
def swapRemove (l : List Nat) (i : Nat) : List Nat :=
  if i < l.length then (l.set i (l.getLastD 0)).dropLast else l

/-- `Node::abandon`, mirrored statement by statement: read the child's
cached index, clear the child's parent, `swap_remove` the child from the
parent's children, then, if any children remain, update the cached index
of the element now sitting at `min(index, count - 1)`. -/
def Node.abandon (a : Arena K T) (p c : Nat) : Arena K T :=
  let i := ((a c).map Node.index).getD 0
  let a1 := upd a c (fun n => { n with parent := none })
  let a2 := upd a1 p (fun n => { n with children := swapRemove n.children i })
  let count := (childrenOf a2 p).length
  if count ≠ 0 then
    let j := min i (count - 1)
    let m := (childrenOf a2 p).getD j 0
    upd a2 m (fun n => { n with index := j })
  else a2

/-- The keys removed by `remove_descendants`: keys of the subtree below `i`
(children first, own key last, in source order).  Fuel replaces the
structural recursion of the source; fuel `size` suffices for well-formed
trees because child ids strictly increase along any chain. -/
def subKeys (a : Arena K T) : Nat → Nat → List K
  | 0, _ => []
  | fuel + 1, i =>
    match a i with
    | none => []
    | some n => n.children.flatMap (subKeys a fuel) ++ [n.key]

/-- `Node::detach`: abandon from the parent if there is one, then purge the
whole subtree's keys from the primary index. -/
def Node.detach [DecidableEq K] (a : Arena K T) (size i : Nat)
    (index : List (K × Nat)) : Arena K T × List (K × Nat) :=
  let a1 := match (a i).bind Node.parent with
    | some p => Node.abandon a p i
    | none => a
  (a1, (subKeys a1 size i).foldl (fun m k => mapErase m k) index)

/-- `Node::attach`: detach `self`, set `self.index` to the parent's child
count, set the parent back-reference, and push `self` onto the parent's
children. -/
def Node.attach [DecidableEq K] (a : Arena K T) (size self pr : Nat)
    (index : List (K × Nat)) : Arena K T × List (K × Nat) :=
  let r := Node.detach a size self index
  let a2 := upd r.1 self (fun n => { n with index := (childrenOf r.1 pr).length })
  let a3 := upd a2 self (fun n => { n with parent := some pr })
  let a4 := upd a3 pr (fun n => { n with children := n.children ++ [self] })
  (a4, r.2)

/-- `Node::adopt` just forwards to `attach`. -/
def Node.adopt [DecidableEq K] (a : Arena K T) (size pr child : Nat)
    (index : List (K × Nat)) : Arena K T × List (K × Nat) :=
  Node.attach a size child pr index

/-- The tree: root id, arena, allocation counter, primary index and
secondary index, mirroring `struct MultiIndexedTree<K, T>`. -/
structure MultiIndexedTree (K T : Type) where
  size : Nat
  arena : Arena K T
  root : Nat
  index : List (K × Nat)
  secondary_index : List (String × List K)

/-- `MultiIndexedTree::new`: a singleton tree whose root (id 0) is the only
entry of the primary index. -/
def MultiIndexedTree.new [DecidableEq K] (root_key : K) (root_value : T) :
    MultiIndexedTree K T :=
  { size := 1
    arena := fun i => if i = 0 then some ⟨[], 0, none, root_value, root_key⟩ else none
    root := 0
    index := mapInsert [] root_key 0
    secondary_index := [] }

/-- `MultiIndexedTree::insert`: look up the parent, allocate a fresh node,
adopt it (which first detaches the fresh leaf, erasing its key from the
index), then insert `key → fresh` into the primary index. -/
def MultiIndexedTree.insert [DecidableEq K] (t : MultiIndexedTree K T)
    (parent_key : K) (key : K) (value : T) :
    Except String Unit × MultiIndexedTree K T :=
  match mapLookup t.index parent_key with
  | some pid =>
    let fresh := t.size
    let a0 : Arena K T := fun j =>
      if j = fresh then some ⟨[], 0, none, value, key⟩ else t.arena j
    let r := Node.adopt a0 (t.size + 1) pid fresh t.index
    (Except.ok (),
      { t with size := t.size + 1, arena := r.1, index := mapInsert r.2 key fresh })
  | none => (Except.error "Parent key not found", t)

/-- `MultiIndexedTree::remove`: look up the node and detach it, purging it
and all descendants from the primary index. -/
def MultiIndexedTree.remove [DecidableEq K] (t : MultiIndexedTree K T) (key : K) :
    Except String Unit × MultiIndexedTree K T :=
  match mapLookup t.index key with
  | some id =>
    let r := Node.detach t.arena t.size id t.index
    (Except.ok (), { t with arena := r.1, index := r.2 })
  | none => (Except.error "Key not found", t)

/-- `MultiIndexedTree::find`: primary-index lookup, returning the node id. -/
def MultiIndexedTree.find [DecidableEq K] (t : MultiIndexedTree K T) (key : K) :
    Option Nat :=
  mapLookup t.index key

/-- `MultiIndexedTree::add_to_secondary_index`: append the key to the tag's
list, creating the list when the tag is new (`entry().or_insert!().push`). -/
def MultiIndexedTree.add_to_secondary_index [DecidableEq K]
    (t : MultiIndexedTree K T) (tag : String) (key : K) : MultiIndexedTree K T :=
  { t with secondary_index :=
      match mapLookup t.secondary_index tag with
      | none => mapInsert t.secondary_index tag [key]
      | some l => mapInsert t.secondary_index tag (l ++ [key]) }

/-- `MultiIndexedTree::find_by_secondary_index`: `None` for an unregistered
tag, otherwise the tag's keys filtered through `find`. -/
def MultiIndexedTree.find_by_secondary_index [DecidableEq K]
    (t : MultiIndexedTree K T) (tag : String) : Option (List Nat) :=
  (mapLookup t.secondary_index tag).map (fun keys => keys.filterMap t.find)

/-- Run of the depth-first iterator: pop the top of the stack, push its
children in reverse (so they come off in stored order: the new stack is
`children ++ rest`), emit the node. -/
def dfsRun (a : Arena K T) : Nat → List Nat → List Nat
  | 0, _ => []
  | fuel + 1, stack =>
    match stack with
    | [] => []
    | i :: rest => i :: dfsRun a fuel (childrenOf a i ++ rest)

/-- Run of the breadth-first iterator: pop the queue front, push the
children at the back, emit the node. -/
def bfsRun (a : Arena K T) : Nat → List Nat → List Nat
  | 0, _ => []
  | fuel + 1, queue =>
    match queue with
    | [] => []
    | i :: rest => i :: bfsRun a fuel (rest ++ childrenOf a i)

/-- Run of the shortest-path iterator: identical queue discipline to
breadth-first, additionally carrying a depth counter per queued node. -/
def spRun (a : Arena K T) : Nat → List (Nat × Nat) → List Nat
  | 0, _ => []
  | fuel + 1, queue =>
    match queue with
    | [] => []
    | (d, i) :: rest =>
      i :: spRun a fuel (rest ++ (childrenOf a i).map (fun c => (d + 1, c)))

/-- `iter_depth_first` followed by exhausting the iterator (up to `fuel`
steps; any fuel at least the number of reachable nodes is exact). -/
def MultiIndexedTree.iter_depth_first (t : MultiIndexedTree K T) (fuel : Nat) :
    List Nat :=
  dfsRun t.arena fuel [t.root]

/-- `iter_breadth_first` followed by exhausting the iterator. -/
def MultiIndexedTree.iter_breadth_first (t : MultiIndexedTree K T) (fuel : Nat) :
    List Nat :=
  bfsRun t.arena fuel [t.root]

/-- `iter_shortest_path` followed by exhausting the iterator (the queue
starts with the root at depth 0). -/
def MultiIndexedTree.iter_shortest_path (t : MultiIndexedTree K T) (fuel : Nat) :
    List Nat :=
  spRun t.arena fuel [(0, t.root)]

/-- `usize::MAX` (the target is 64-bit). -/
def usizeMax : Nat := 18446744073709551615

/-- The mutable state of `dijkstra_shortest_paths`' main loop: the
`distances` and `predecessors` hash maps and the `VecDeque` queue. -/
structure DState (K : Type) where
  distances : List (K × Nat)
  predecessors : List (K × List K)
  queue : List K

/-- Sum of the values of an association list (the termination measure of
the dijkstra loop, together with the queue length). -/
def sumVals {A : Type} [DecidableEq A] (m : List (A × Nat)) : Nat :=
  (m.map Prod.snd).sum

/-- The keys of the children of node `id` (`child.key` for each entry of
`node.children`; in the source the children are live `Rc`s, so the arena
read of a child always succeeds on well-formed trees). -/
def childKeys (t : MultiIndexedTree K T) (id : Nat) : List K :=
  (childrenOf t.arena id).filterMap (fun c => (t.arena c).map Node.key)

/-- The body of the `for child in node.children` loop: look the child key
up in `distances` (an `unwrap`, hence a potential panic), then either
relax strictly (overwrite distance and predecessors, push the child), or
record an extra predecessor on a tie, or do nothing.  `usize` addition
wraps. -/
def dijkstraChildStep [DecidableEq K] (current_key : K) (current_distance : Nat)
    (st : DState K) (child_key : K) : Except String (DState K) :=
  match mapLookup st.distances child_key with
  | none => Except.error "no distance for child key"
  | some dc =>
    let nd := (current_distance + 1) % (usizeMax + 1)
    if nd < dc then
      Except.ok ⟨mapInsert st.distances child_key nd,
        mapInsert st.predecessors child_key [current_key],
        st.queue ++ [child_key]⟩
    else if nd = dc then
      Except.ok ⟨st.distances,
        mapInsert st.predecessors child_key
          ((mapLookup st.predecessors child_key).getD [] ++ [current_key]),
        st.queue⟩
    else Except.ok st

/-- Process a list of child keys in order, stopping at the first panic. -/
def dijkstraChildren [DecidableEq K] (current_key : K) (current_distance : Nat) :
    List K → DState K → Except String (DState K)
  | [], st => Except.ok st
  | ck :: cks, st =>
    match dijkstraChildStep current_key current_distance st ck with
    | Except.error e => Except.error e
    | Except.ok st' => dijkstraChildren current_key current_distance cks st'

/-- One iteration of the while loop after popping `current_key`: unwrap
its distance, and if the primary index knows the key, relax all children
of the indexed node. -/
def dijkstraVisit [DecidableEq K] (t : MultiIndexedTree K T) (current_key : K)
    (st : DState K) : Except String (DState K) :=
  match mapLookup st.distances current_key with
  | none => Except.error "no distance for current key"
  | some current_distance =>
    match mapLookup t.index current_key with
    | none => Except.ok st
    | some id => dijkstraChildren current_key current_distance (childKeys t id) st

/-- The `while let Some(current_key) = queue.pop_front()` loop, with fuel
replacing the termination argument (the sum of all distances plus the
queue length strictly decreases, so any larger fuel is exact). -/
def dijkstraLoop [DecidableEq K] (t : MultiIndexedTree K T) :
    Nat → DState K → Except String (DState K)
  | 0, _ => Except.error "out of fuel"
  | fuel + 1, st =>
    match st.queue with
    | [] => Except.ok st
    | current :: rest =>
      match dijkstraVisit t current ⟨st.distances, st.predecessors, rest⟩ with
      | Except.error e => Except.error e
      | Except.ok st' => dijkstraLoop t fuel st'

/-- `trace_paths`, returning the completed (already reversed) paths in the
order they are recorded: push the key, recurse through every predecessor,
and when the key has no predecessor entry record the reversed path.  Fuel
replaces the recursion (predecessor chains strictly decrease the distance,
so fuel `usizeMax + 2` is exact). -/
def tracePaths [DecidableEq K] (preds : List (K × List K)) :
    Nat → K → List K → List (List K)
  | 0, _, _ => []
  | fuel + 1, key, current_path =>
    match mapLookup preds key with
    | some ps => ps.flatMap (fun pr => tracePaths preds fuel pr (current_path ++ [key]))
    | none => [(current_path ++ [key]).reverse]

/-- `MultiIndexedTree::dijkstra_shortest_paths`: initialise every indexed
key's distance to `usize::MAX` and the start key's to `0`, run the
BFS-style relaxation loop, then check `distances[end_key]` (an unguarded
indexing, hence a potential panic) and trace the predecessor paths,
keying each completed path by its length (later paths overwrite earlier
ones of the same length). -/
def MultiIndexedTree.dijkstra_shortest_paths [DecidableEq K] (t : MultiIndexedTree K T)
    (start_key end_key : K) : Except String (Option (List (Nat × List K))) :=
  let distances := mapInsert
    (t.index.foldl (fun m e => mapInsert m e.1 usizeMax) []) start_key 0
  match dijkstraLoop t (sumVals distances + 2) ⟨distances, [], [start_key]⟩ with
  | Except.error e => Except.error e
  | Except.ok st =>
    match mapLookup st.distances end_key with
    | none => Except.error "no distance for end key"
    | some dend =>
      if dend = usizeMax then Except.ok none
      else Except.ok (some ((tracePaths st.predecessors (usizeMax + 2) end_key []).foldl
        (fun acc p => mapInsert acc p.length p) []))

/-- The edge relation the dijkstra loop traverses: from key `k` to the
keys of the children of the node the primary index maps `k` to (on trees
without duplicate keys this is exactly the parent-to-child edge
relation). -/
def KeyEdge [DecidableEq K] (t : MultiIndexedTree K T) (k k' : K) : Prop :=
  ∃ id, mapLookup t.index k = some id ∧ k' ∈ childKeys t id

/-- Reachability along `KeyEdge` (downward edges from a start key). -/
inductive KeyReach [DecidableEq K] (t : MultiIndexedTree K T) : K → K → Prop where
  | refl (k : K) : KeyReach t k k
  | step {a b c : K} : KeyReach t a b → KeyEdge t b c → KeyReach t a c

/-- Every child key of every indexed node is itself in the primary index
(rules out the reachable-but-unindexed stale keys that make the loop's
`distances.get(&child_key).unwrap()` panic). -/
def Covered [DecidableEq K] (t : MultiIndexedTree K T) : Prop :=
  ∀ e ∈ t.index, ∀ k' ∈ childKeys t e.2, (mapLookup t.index k').isSome

instance [DecidableEq K] (t : MultiIndexedTree K T) : Decidable (Covered t) :=
  inferInstanceAs (Decidable (∀ e ∈ t.index, ∀ k' ∈ childKeys t e.2,
    (mapLookup t.index k').isSome))

/-- The primary index always points at the newest node carrying a key:
every arena node with key `k` has an id at most `index[k]`.  (Maintained
by every public operation; inserts always allocate at the top.) -/
def keyMaxP [DecidableEq K] (t : MultiIndexedTree K T) : Prop :=
  ∀ k id, mapLookup t.index k = some id → ∀ j n, t.arena j = some n → n.key = k → j ≤ id

/-- Keys of an emitted id sequence, as the unit tests observe them. -/
def keysOf (t : MultiIndexedTree K T) (ids : List Nat) : List K :=
  ids.filterMap (fun i => (t.arena i).map Node.key)

/-- One public mutation of the tree, for stating "after any sequence of
operations" claims. -/
inductive Op (K T : Type) where
  | insert (parent_key key : K) (value : T)
  | remove (key : K)
  | addTag (tag : String) (key : K)
deriving DecidableEq

/-- Apply one operation (the `Result` of insert and remove is discarded). -/
def applyOp [DecidableEq K] (t : MultiIndexedTree K T) : Op K T → MultiIndexedTree K T
  | .insert p k v => (t.insert p k v).2
  | .remove k => (t.remove k).2
  | .addTag tag k => t.add_to_secondary_index tag k

/-- Apply a sequence of operations left to right. -/
def applyOps [DecidableEq K] (t : MultiIndexedTree K T) (ops : List (Op K T)) :
    MultiIndexedTree K T :=
  ops.foldl applyOp t

/-- A tree is reachable when it arises from `new` followed by some sequence
of public operations. -/
def Reachable [DecidableEq K] (t : MultiIndexedTree K T) : Prop :=
  ∃ root_key root_value ops, t = applyOps (MultiIndexedTree.new root_key root_value) ops

/-- The keys registered for `tag` by a sequence of operations, in
registration order (duplicates kept). -/
def tagKeys (tag : String) : List (Op K T) → List K
  | [] => []
  | Op.addTag tag' k :: ops => if tag' = tag then k :: tagKeys tag ops else tagKeys tag ops
  | Op.insert _ _ _ :: ops => tagKeys tag ops
  | Op.remove _ :: ops => tagKeys tag ops

/-- The key an operation inserts under, if it is an `insert`. -/
def insertedKey : Op K T → Option K
  | Op.insert _ k _ => some k
  | Op.remove _ => none
  | Op.addTag _ _ => none

/-- The key an operation removes, if it is a `remove`. -/
def removedKey : Op K T → Option K
  | Op.insert _ _ _ => none
  | Op.remove k => some k
  | Op.addTag _ _ => none

/-- `Reach a r i`: node `i` is reachable from `r` by following children
lists (the structural notion of being in the subtree of `r`). -/
inductive Reach (a : Arena K T) (r : Nat) : Nat → Prop
  | refl : Reach a r r
  | step {i c : Nat} : Reach a r i → c ∈ childrenOf a i → Reach a r c

/-- Invariants of the arena maintained by every public operation: the arena
is exactly the allocated prefix, child ids strictly exceed their parent's id
and are allocated, the cached `index` and `parent` of every child agree
with its position, and every node with a parent pointer really is at its
cached position in that parent's children list. -/
structure ArenaWF (a : Arena K T) (size : Nat) : Prop where
  dom : ∀ i, (a i).isSome ↔ i < size
  child_gt : ∀ i n, a i = some n → ∀ c ∈ n.children, i < c ∧ c < size
  pos : ∀ i n, a i = some n → ∀ q d, n.children[q]? = some d →
    ∃ m, a d = some m ∧ m.index = q ∧ m.parent = some i
  par : ∀ i n, a i = some n → ∀ q, n.parent = some q →
    ∃ np, a q = some np ∧ np.children[n.index]? = some i

/-- Well-formedness of a whole tree: arena invariants, the root is node 0
with no parent, and the primary index is key-consistent and points at
nodes reachable from the root. -/
structure WF [DecidableEq K] (t : MultiIndexedTree K T) : Prop where
  awf : ArenaWF t.arena t.size
  root_zero : t.root = 0
  root_lt : t.root < t.size
  root_par : ∀ n, t.arena t.root = some n → n.parent = none
  key_con : ∀ k id, mapLookup t.index k = some id → ∃ n, t.arena id = some n ∧ n.key = k
  idx_reach : ∀ k id, mapLookup t.index k = some id → Reach t.arena t.root id

/-- The scenario tree of the unit tests: root with children `child1` and
`child2`, and one grandchild under each. -/
def scenarioTree : MultiIndexedTree String String :=
  applyOps (MultiIndexedTree.new "root" "root_value")
    [.insert "root" "child1" "child1_value",
     .insert "root" "child2" "child2_value",
     .insert "child1" "child1.1" "child1.1_value",
     .insert "child2" "child2.1" "child2.1_value"]

/-- Invariant of the dijkstra relaxation loop.  `pending` lists keys whose
relaxation obligation is temporarily suspended (the key popped in the
current iteration); the loop maintains the invariant with `pending = []`.
All other fields describe the `distances`, `predecessors` and `queue`
state: distance entries exist exactly for indexed keys and the start key;
the start stays at distance `0` and never gains predecessors; finite
distances are bounded by the id the index maps the key to (hence below
`usizeMax` on small trees) and witness reachability along `KeyEdge`;
queued keys have finite distances; predecessor lists are nonempty, record
valid edges, strictly decrease the distance, and exist for every finite
non-start key; and every finite key is pending, queued, or fully relaxed. -/
structure DInvP [DecidableEq K] (t : MultiIndexedTree K T) (start_key : K)
    (pending : List K) (st : DState K) : Prop where
  dom : ∀ k, (mapLookup st.distances k).isSome ↔
    ((mapLookup t.index k).isSome ∨ k = start_key)
  start0 : mapLookup st.distances start_key = some 0
  bound : ∀ k v, mapLookup st.distances k = some v →
    v = usizeMax ∨ (k = start_key ∧ v = 0) ∨
      ∃ id, mapLookup t.index k = some id ∧ v ≤ id
  qfin : ∀ k ∈ st.queue, ∃ v, mapLookup st.distances k = some v ∧ v ≠ usizeMax
  reach : ∀ k v, mapLookup st.distances k = some v → v ≠ usizeMax →
    KeyReach t start_key k
  pstart : mapLookup st.predecessors start_key = none
  pne : ∀ k ps, mapLookup st.predecessors k = some ps → ps ≠ []
  pedge : ∀ k ps, mapLookup st.predecessors k = some ps → ∀ p ∈ ps, KeyEdge t p k
  pdist : ∀ k ps, mapLookup st.predecessors k = some ps → ∀ p ∈ ps,
    ∃ vp vk, mapLookup st.distances p = some vp ∧ mapLookup st.distances k = some vk ∧
      vp < vk ∧ vk ≠ usizeMax
  pfin : ∀ k v, mapLookup st.distances k = some v → v ≠ usizeMax → k ≠ start_key →
    (mapLookup st.predecessors k).isSome
  relax : ∀ k v, mapLookup st.distances k = some v → v ≠ usizeMax →
    k ∈ pending ∨ k ∈ st.queue ∨
      ∀ id, mapLookup t.index k = some id → ∀ k' ∈ childKeys t id,
        ∃ v', mapLookup st.distances k' = some v' ∧ v' ≤ v + 1

/-! ### Association-list lemmas -/

theorem mapLookup_mapErase_self [DecidableEq K] {A : Type} (m : List (K × A)) (k : K) :
    mapLookup (mapErase m k) k = none := by
  induction m with
  | nil => rfl
  | cons e rest ih =>
    rw [mapErase]
    by_cases h : e.1 = k
    · rw [if_pos h]; exact ih
    · rw [if_neg h, mapLookup, if_neg h]; exact ih

theorem mapLookup_mapErase_ne [DecidableEq K] {A : Type} (m : List (K × A)) {k k' : K}
    (h : k' ≠ k) : mapLookup (mapErase m k) k' = mapLookup m k' := by
  induction m with
  | nil => rfl
  | cons e rest ih =>
    rw [mapErase]
    by_cases he : e.1 = k
    · have h2 : e.1 ≠ k' := by rw [he]; exact Ne.symm h
      rw [if_pos he, mapLookup, if_neg h2]; exact ih
    · rw [if_neg he, mapLookup, mapLookup]
      by_cases he' : e.1 = k'
      · rw [if_pos he', if_pos he']
      · rw [if_neg he', if_neg he']; exact ih

theorem mapLookup_mapInsert_self [DecidableEq K] {A : Type} (m : List (K × A)) (k : K) (v : A) :
    mapLookup (mapInsert m k v) k = some v := by
  simp [mapInsert, mapLookup]

theorem mapLookup_mapInsert_ne [DecidableEq K] {A : Type} (m : List (K × A)) {k k' : K} (v : A)
    (h : k' ≠ k) : mapLookup (mapInsert m k v) k' = mapLookup m k' := by
  have : k ≠ k' := fun hk => h hk.symm
  simp [mapInsert, mapLookup, this, mapLookup_mapErase_ne m h]

theorem mapLookup_eraseAll [DecidableEq K] {A : Type} (ks : List K) (m : List (K × A)) (k : K) :
    mapLookup (ks.foldl (fun m' k' => mapErase m' k') m) k =
      if k ∈ ks then none else mapLookup m k := by
  induction ks generalizing m with
  | nil => simp
  | cons k0 ks ih =>
    by_cases hk : k = k0
    · subst hk
      by_cases hmem : k ∈ ks <;>
        simp [List.foldl_cons, ih, hmem, mapLookup_mapErase_self]
    · by_cases hmem : k ∈ ks <;>
        simp [List.foldl_cons, ih, hmem, hk, mapLookup_mapErase_ne m hk]

theorem mapLookup_mem [DecidableEq K] {A : Type} {m : List (K × A)} {k : K} {v : A}
    (h : mapLookup m k = some v) : (k, v) ∈ m := by
  induction m with
  | nil => simp [mapLookup] at h
  | cons e rest ih =>
    obtain ⟨e1, e2⟩ := e
    rw [mapLookup] at h
    by_cases he : e1 = k
    · rw [if_pos he] at h
      cases h
      subst he
      exact List.mem_cons_self _ _
    · rw [if_neg he] at h
      exact List.mem_cons_of_mem _ (ih h)

/-! ### Arena-update lemmas -/

theorem upd_self (a : Arena K T) (i : Nat) (f : Node K T → Node K T) :
    upd a i f i = (a i).map f := by simp [upd]

theorem upd_ne {a : Arena K T} {i j : Nat} {f : Node K T → Node K T} (h : j ≠ i) :
    upd a i f j = a j := by simp [upd, h]

theorem upd_isSome (a : Arena K T) (i j : Nat) (f : Node K T → Node K T) :
    (upd a i f j).isSome = (a j).isSome := by
  by_cases h : j = i <;> simp [upd, h]

theorem upd_map_key {a : Arena K T} {i : Nat} {f : Node K T → Node K T} (j : Nat)
    (hf : ∀ n, (f n).key = n.key) :
    ((upd a i f) j).map Node.key = (a j).map Node.key := by
  by_cases h : j = i
  · subst h
    cases ha : a j <;> simp [upd_self, ha, hf]
  · rw [upd_ne h]

theorem upd_childrenOf_of_preserve {a : Arena K T} {i : Nat} {f : Node K T → Node K T}
    (j : Nat) (hf : ∀ n, (f n).children = n.children) :
    childrenOf (upd a i f) j = childrenOf a j := by
  by_cases h : j = i
  · subst h
    cases ha : a j <;> simp [childrenOf, upd_self, ha, hf]
  · rw [childrenOf, upd_ne h, childrenOf]

theorem upd_childrenOf_ne {a : Arena K T} {i j : Nat} {f : Node K T → Node K T} (h : j ≠ i) :
    childrenOf (upd a i f) j = childrenOf a j := by
  rw [childrenOf, upd_ne h, childrenOf]

theorem upd_map_parent_of_preserve {a : Arena K T} {i : Nat} {f : Node K T → Node K T}
    (j : Nat) (hf : ∀ n, (f n).parent = n.parent) :
    ((upd a i f) j).map Node.parent = (a j).map Node.parent := by
  by_cases h : j = i
  · subst h
    cases ha : a j <;> simp [upd_self, ha, hf]
  · rw [upd_ne h]

/-! ### swap_remove lemmas -/

theorem getLastD_getElem? {l : List Nat} (h : l ≠ []) :
    l[l.length - 1]? = some (l.getLastD 0) := by
  have hlen : 0 < l.length := List.length_pos.mpr h
  have h1 : l.length - 1 < l.length := by omega
  rw [List.getElem?_eq_getElem h1]
  rw [List.getLastD_eq_getLast?, List.getLast?_eq_getElem?, List.getElem?_eq_getElem h1]
  rfl

theorem swapRemove_length {l : List Nat} {i : Nat} (h : i < l.length) :
    (swapRemove l i).length = l.length - 1 := by
  simp [swapRemove, h]

theorem swapRemove_getElem? {l : List Nat} {i : Nat} (h : i < l.length) (q : Nat) :
    (swapRemove l i)[q]? =
      if q < l.length - 1 then (if q = i then l[l.length - 1]? else l[q]?) else none := by
  have hne : l ≠ [] := List.length_pos.mp (Nat.lt_of_le_of_lt (Nat.zero_le i) h)
  rw [swapRemove, if_pos h, List.getElem?_dropLast, List.length_set]
  by_cases hq : q < l.length - 1
  · rw [if_pos hq, if_pos hq]
    by_cases hqi : q = i
    · subst hqi
      rw [if_pos rfl, List.getElem?_set_self h, getLastD_getElem? hne]
    · rw [if_neg hqi, List.getElem?_set_ne (fun hh => hqi hh.symm)]
  · rw [if_neg hq, if_neg hq]

theorem mem_of_mem_swapRemove {l : List Nat} {i x : Nat} (h : x ∈ swapRemove l i) : x ∈ l := by
  rw [swapRemove] at h
  by_cases hi : i < l.length
  · rw [if_pos hi] at h
    have h1 : x ∈ l.set i (l.getLastD 0) := by
      have := List.dropLast_eq_take (l.set i (l.getLastD 0))
      rw [this] at h
      exact List.take_subset _ _ h
    rcases List.mem_or_eq_of_mem_set h1 with h2 | h2
    · exact h2
    · subst h2
      have hne : l ≠ [] := List.length_pos.mp (Nat.lt_of_le_of_lt (Nat.zero_le i) hi)
      exact List.getElem?_mem (getLastD_getElem? hne)
  · rw [if_neg hi] at h
    exact h

/-! ### Reachability through children lists -/

theorem Reach.trans {a : Arena K T} {r x y : Nat} (h1 : Reach a r x) (h2 : Reach a x y) :
    Reach a r y := by
  induction h2 with
  | refl => exact h1
  | step _ hc ih => exact Reach.step ih hc

theorem Reach.head_cases {a : Arena K T} {r x : Nat} (h : Reach a r x) :
    x = r ∨ ∃ c ∈ childrenOf a r, Reach a c x := by
  induction h with
  | refl => exact Or.inl rfl
  | step hr hc ih =>
    rename_i i c
    rcases ih with rfl | ⟨c1, hc1, hr1⟩
    · exact Or.inr ⟨c, hc, Reach.refl⟩
    · exact Or.inr ⟨c1, hc1, Reach.step hr1 hc⟩

/-! ### Structural well-formedness -/

/-! ### Frame lemmas for `Node.abandon` -/

theorem abandon_isSome (a : Arena K T) (p c j : Nat) :
    ((Node.abandon a p c) j).isSome = (a j).isSome := by
  simp only [Node.abandon]
  split
  · simp [upd_isSome]
  · simp [upd_isSome]

theorem abandon_map_key (a : Arena K T) (p c j : Nat) :
    ((Node.abandon a p c) j).map Node.key = (a j).map Node.key := by
  simp only [Node.abandon]
  split
  · exact (upd_map_key j (by intro n; rfl)).trans
      ((upd_map_key j (by intro n; rfl)).trans (upd_map_key j (by intro n; rfl)))
  · exact (upd_map_key j (by intro n; rfl)).trans (upd_map_key j (by intro n; rfl))

theorem abandon_childrenOf_ne (a : Arena K T) {p c j : Nat} (hj : j ≠ p) :
    childrenOf (Node.abandon a p c) j = childrenOf a j := by
  simp only [Node.abandon]
  split
  · exact (upd_childrenOf_of_preserve j (by intro n; rfl)).trans
      ((upd_childrenOf_ne hj).trans (upd_childrenOf_of_preserve j (by intro n; rfl)))
  · exact (upd_childrenOf_ne hj).trans (upd_childrenOf_of_preserve j (by intro n; rfl))

theorem childrenOf_upd_parent_none (a : Arena K T) (c p : Nat) :
    childrenOf (upd a c (fun n => { n with parent := none })) p = childrenOf a p :=
  upd_childrenOf_of_preserve p (by intro n; rfl)

theorem abandon_childrenOf_self (a : Arena K T) (p c : Nat) :
    childrenOf (Node.abandon a p c) p =
      swapRemove (childrenOf a p) (((a c).map Node.index).getD 0) := by
  have hmid : ∀ a1 : Arena K T, childrenOf a1 p = childrenOf a p →
      childrenOf (upd a1 p (fun n =>
        { n with children := swapRemove n.children (((a c).map Node.index).getD 0) })) p =
      swapRemove (childrenOf a p) (((a c).map Node.index).getD 0) := by
    intro a1 h1
    rw [childrenOf, upd_self]
    cases ha : a1 p with
    | none =>
      rw [childrenOf, ha] at h1
      simp [← h1, swapRemove]
    | some n0 =>
      rw [childrenOf, ha] at h1
      simp [← h1]
  simp only [Node.abandon]
  split
  · exact (upd_childrenOf_of_preserve p (by intro n; rfl)).trans
      (hmid _ (childrenOf_upd_parent_none a c p))
  · exact hmid _ (childrenOf_upd_parent_none a c p)

/-- Pointwise description of `Node.abandon` when the abandoned child `c` is
allocated and distinct from the parent `p`: the result is the arena with
`c`'s parent cleared and `p`'s children swap-removed at `c`'s cached index,
followed (when children remain) by the index fix-up of the element now at
`min(index, count - 1)`. -/
theorem abandon_cases (a : Arena K T) {p c : Nat} {nc : Node K T}
    (hc : a c = some nc) (hpc : p ≠ c) :
    ∃ a2 : Arena K T,
      a2 c = some { nc with parent := none } ∧
      a2 p = (a p).map (fun n =>
        { n with children := swapRemove (childrenOf a p) nc.index }) ∧
      (∀ j, j ≠ c → j ≠ p → a2 j = a j) ∧
      ((swapRemove (childrenOf a p) nc.index).length = 0 ∧ Node.abandon a p c = a2 ∨
        ∃ j0 m, (swapRemove (childrenOf a p) nc.index).length ≠ 0 ∧
          j0 = min nc.index ((swapRemove (childrenOf a p) nc.index).length - 1) ∧
          (swapRemove (childrenOf a p) nc.index)[j0]? = some m ∧
          Node.abandon a p c = upd a2 m (fun n => { n with index := j0 })) := by
  have hival : ((a c).map Node.index).getD 0 = nc.index := by rw [hc]; rfl
  refine ⟨upd (upd a c (fun n => { n with parent := none })) p
      (fun n => { n with children := swapRemove n.children nc.index }), ?_, ?_, ?_, ?_⟩
  · rw [upd_ne (Ne.symm hpc), upd_self, hc]
    rfl
  · rw [upd_self, upd_ne hpc]
    cases hp : a p with
    | none => rfl
    | some np =>
      have h2 : childrenOf a p = np.children := by rw [childrenOf, hp]; rfl
      rw [h2]
      rfl
  · intro j h1 h2
    rw [upd_ne h2, upd_ne h1]
  · have hch : childrenOf (upd (upd a c (fun n => { n with parent := none })) p
        (fun n => { n with children := swapRemove n.children nc.index })) p =
        swapRemove (childrenOf a p) nc.index := by
      rw [childrenOf, upd_self, upd_ne hpc]
      cases hp : a p with
      | none =>
        have h2 : childrenOf a p = [] := by rw [childrenOf, hp]; rfl
        rw [h2]
        simp [swapRemove]
      | some np =>
        have h2 : childrenOf a p = np.children := by rw [childrenOf, hp]; rfl
        rw [h2]
        rfl
    have habandon : Node.abandon a p c =
        (if (swapRemove (childrenOf a p) nc.index).length ≠ 0 then
          upd (upd (upd a c (fun n => { n with parent := none })) p
              (fun n => { n with children := swapRemove n.children nc.index }))
            ((swapRemove (childrenOf a p) nc.index).getD
              (min nc.index ((swapRemove (childrenOf a p) nc.index).length - 1)) 0)
            (fun n =>
              { n with index := min nc.index ((swapRemove (childrenOf a p) nc.index).length - 1) })
        else
          upd (upd a c (fun n => { n with parent := none })) p
            (fun n => { n with children := swapRemove n.children nc.index })) := by
      simp only [Node.abandon, hival, hch]
    by_cases h0 : (swapRemove (childrenOf a p) nc.index).length = 0
    · left
      refine ⟨h0, ?_⟩
      rw [habandon, if_neg (by omega)]
    · right
      have hj0lt : min nc.index ((swapRemove (childrenOf a p) nc.index).length - 1) <
          (swapRemove (childrenOf a p) nc.index).length := by omega
      refine ⟨min nc.index ((swapRemove (childrenOf a p) nc.index).length - 1),
        (swapRemove (childrenOf a p) nc.index).getD
          (min nc.index ((swapRemove (childrenOf a p) nc.index).length - 1)) 0,
        h0, rfl, ?_, ?_⟩
      · rw [List.getD_eq_getElem?_getD, List.getElem?_eq_getElem hj0lt]
        rfl
      · rw [habandon, if_pos h0]

/-- `Node.abandon` preserves the arena invariants when applied to a child
`c` whose parent pointer is `p` — the exact situation of the call site in
`Node::detach`. -/
theorem ArenaWF.abandon_pres {a : Arena K T} {size : Nat} (h : ArenaWF a size)
    {c p : Nat} {nc : Node K T} (hc : a c = some nc) (hpp : nc.parent = some p) :
    ArenaWF (Node.abandon a p c) size := by
  obtain ⟨np, hpa, hgetc⟩ := h.par c nc hc p hpp
  have hilen : nc.index < np.children.length := by
    obtain ⟨hh, -⟩ := List.getElem?_eq_some_iff.mp hgetc
    exact hh
  have hcl : c ∈ np.children := List.getElem?_mem hgetc
  have hpcgt : p < c := (h.child_gt p np hpa c hcl).1
  have hpc : p ≠ c := Nat.ne_of_lt hpcgt
  have hlp : childrenOf a p = np.children := by rw [childrenOf, hpa]; rfl
  obtain ⟨a2, ha2c, ha2p, ha2o, hbr⟩ := abandon_cases a hc hpc
  rw [hlp] at ha2p hbr
  have ha2p' : a2 p = some { np with children := swapRemove np.children nc.index } := by
    rw [ha2p, hpa]
    rfl
  have hupos : ∀ (q d : Nat), np.children[q]? = some d →
      ∃ md, a d = some md ∧ md.index = q ∧ md.parent = some p := h.pos p np hpa
  have hposinj : ∀ (q q' d : Nat), np.children[q]? = some d → np.children[q']? = some d →
      q = q' := by
    intro q q' d h1 h2
    obtain ⟨m1, hm1, hi1, -⟩ := hupos q d h1
    obtain ⟨m2, hm2, hi2, -⟩ := hupos q' d h2
    rw [hm1] at hm2
    cases hm2
    omega
  have hconly : ∀ (q : Nat), np.children[q]? = some c → q = nc.index :=
    fun q hq => hposinj q nc.index c hq hgetc
  rcases hbr with ⟨h0, heq⟩ | ⟨j0, m, h0, hj0, hm, heq⟩
  · -- the removed child was the only one: nothing is moved
    have hlen1 : np.children.length = 1 := by
      have := swapRemove_length (l := np.children) hilen
      omega
    have honly : ∀ (q d : Nat), np.children[q]? = some d → q = 0 ∧ d = c := by
      intro q d hq
      obtain ⟨hqlt, -⟩ := List.getElem?_eq_some_iff.mp hq
      have hq0 : q = 0 := by omega
      subst hq0
      have hi0 : nc.index = 0 := by omega
      rw [hi0] at hgetc
      rw [hq] at hgetc
      cases hgetc
      exact ⟨rfl, rfl⟩
    rw [heq]
    have hsome : ∀ j, (a2 j).isSome = (a j).isSome := by
      intro j
      by_cases hjc : j = c
      · subst j; rw [ha2c, hc]; rfl
      · by_cases hjp : j = p
        · subst j; rw [ha2p', hpa]; rfl
        · rw [ha2o j hjc hjp]
    constructor
    · intro j
      rw [hsome j]
      exact h.dom j
    · intro j n haj c' hc'
      by_cases hjc : j = c
      · subst j
        rw [ha2c] at haj
        cases haj
        exact h.child_gt c nc hc c' hc'
      · by_cases hjp : j = p
        · subst j
          rw [ha2p'] at haj
          cases haj
          exact h.child_gt p np hpa c' (mem_of_mem_swapRemove hc')
        · rw [ha2o j hjc hjp] at haj
          exact h.child_gt j n haj c' hc'
    · intro j n haj q d hd
      by_cases hjc : j = c
      · subst j
        rw [ha2c] at haj
        cases haj
        obtain ⟨md, hmd, hidx, hpar⟩ := h.pos c nc hc q d hd
        have hcd : c < d := (h.child_gt c nc hc d (List.getElem?_mem hd)).1
        refine ⟨md, ?_, hidx, hpar⟩
        rw [ha2o d (by omega) (by omega)]
        exact hmd
      · by_cases hjp : j = p
        · subst j
          rw [ha2p'] at haj
          cases haj
          have hd' : (swapRemove np.children nc.index)[q]? = some d := hd
          rw [List.getElem?_eq_none (by omega)] at hd'
          simp at hd'
        · rw [ha2o j hjc hjp] at haj
          obtain ⟨md, hmd, hidx, hpar⟩ := h.pos j n haj q d hd
          by_cases hdp : d = p
          · subst d
            rw [hpa] at hmd
            cases hmd
            exact ⟨{ np with children := swapRemove np.children nc.index }, ha2p', hidx, hpar⟩
          · have hdc : d ≠ c := by
              intro hh
              subst d
              rw [hc] at hmd
              cases hmd
              rw [hpp] at hpar
              cases hpar
              exact hjp rfl
            refine ⟨md, ?_, hidx, hpar⟩
            rw [ha2o d hdc hdp]
            exact hmd
    · intro j n haj q hq
      by_cases hjc : j = c
      · subst j
        rw [ha2c] at haj
        cases haj
        have hq' : (none : Option Nat) = some q := hq
        exact Option.noConfusion hq'
      · by_cases hjp : j = p
        · subst j
          rw [ha2p'] at haj
          cases haj
          have hq' : np.parent = some q := hq
          obtain ⟨nq, hnq, hgetp⟩ := h.par p np hpa q hq'
          have hqp : q ≠ p := by
            intro hh
            subst q
            rw [hpa] at hnq
            cases hnq
            have := (h.child_gt p np hpa p (List.getElem?_mem hgetp)).1
            omega
          have hqc : q ≠ c := by
            intro hh
            subst q
            rw [hc] at hnq
            cases hnq
            have := (h.child_gt c nc hc p (List.getElem?_mem hgetp)).1
            omega
          refine ⟨nq, ?_, hgetp⟩
          rw [ha2o q hqc hqp]
          exact hnq
        · rw [ha2o j hjc hjp] at haj
          obtain ⟨nq, hnq, hget⟩ := h.par j n haj q hq
          by_cases hqc : q = c
          · subst q
            rw [hc] at hnq
            cases hnq
            exact ⟨{ nc with parent := none }, ha2c, hget⟩
          · by_cases hqp : q = p
            · subst q
              rw [hpa] at hnq
              cases hnq
              obtain ⟨-, hjc'⟩ := honly n.index j hget
              exact absurd hjc' hjc
            · refine ⟨nq, ?_, hget⟩
              rw [ha2o q hqc hqp]
              exact hnq
  · -- at least one child remains; the element moved into the hole gets its
    -- cached index fixed up
    have hlen' : (swapRemove np.children nc.index).length = np.children.length - 1 :=
      swapRemove_length hilen
    have hchar := swapRemove_getElem? (l := np.children) hilen
    obtain ⟨qm, hqmget, hqmcase⟩ :
        ∃ qm, np.children[qm]? = some m ∧
          (nc.index < (swapRemove np.children nc.index).length ∧ j0 = nc.index ∧
              qm = np.children.length - 1 ∨
            nc.index = np.children.length - 1 ∧
              j0 = (swapRemove np.children nc.index).length - 1 ∧ qm = j0) := by
      by_cases hii : nc.index < (swapRemove np.children nc.index).length
      · have hj0i : j0 = nc.index := by omega
        refine ⟨np.children.length - 1, ?_, Or.inl ⟨hii, hj0i, rfl⟩⟩
        have hm' := hm
        rw [hchar j0, if_pos (by omega), if_pos (by omega)] at hm'
        exact hm'
      · have hieq : nc.index = np.children.length - 1 := by omega
        have hj0v : j0 = (swapRemove np.children nc.index).length - 1 := by omega
        refine ⟨j0, ?_, Or.inr ⟨hieq, hj0v, rfl⟩⟩
        have hm' := hm
        rw [hchar j0, if_pos (by omega), if_neg (by omega)] at hm'
        exact hm'
    obtain ⟨nm, hnm, hnmidx, hnmpar⟩ := hupos qm m hqmget
    have hqmne : qm ≠ nc.index := by
      rcases hqmcase with ⟨hii, -, hqm⟩ | ⟨hieq, hj0v, hqm⟩ <;> omega
    have hmc : m ≠ c := by
      intro hh
      subst m
      exact hqmne (hconly qm hqmget)
    have hmpgt : p < m := (h.child_gt p np hpa m (List.getElem?_mem hqmget)).1
    have hmp : m ≠ p := by omega
    rw [heq]
    have hafc : upd a2 m (fun n => { n with index := j0 }) c =
        some { nc with parent := none } := by
      rw [upd_ne (Ne.symm hmc)]
      exact ha2c
    have hafp : upd a2 m (fun n => { n with index := j0 }) p =
        some { np with children := swapRemove np.children nc.index } := by
      rw [upd_ne (by omega : p ≠ m)]
      exact ha2p'
    have hafm : upd a2 m (fun n => { n with index := j0 }) m =
        some { nm with index := j0 } := by
      rw [upd_self, ha2o m hmc hmp, hnm]
      rfl
    have hafo : ∀ j, j ≠ c → j ≠ p → j ≠ m →
        upd a2 m (fun n => { n with index := j0 }) j = a j := by
      intro j h1 h2 h3
      rw [upd_ne h3, ha2o j h1 h2]
    have hsome : ∀ j, (upd a2 m (fun n => { n with index := j0 }) j).isSome = (a j).isSome := by
      intro j
      by_cases hjc : j = c
      · subst j; rw [hafc, hc]; rfl
      · by_cases hjp : j = p
        · subst j; rw [hafp, hpa]; rfl
        · by_cases hjm : j = m
          · subst j; rw [hafm, hnm]; rfl
          · rw [hafo j hjc hjp hjm]
    constructor
    · intro j
      rw [hsome j]
      exact h.dom j
    · intro j n haj c' hc'
      by_cases hjc : j = c
      · subst j
        rw [hafc] at haj
        cases haj
        exact h.child_gt c nc hc c' hc'
      · by_cases hjp : j = p
        · subst j
          rw [hafp] at haj
          cases haj
          exact h.child_gt p np hpa c' (mem_of_mem_swapRemove hc')
        · by_cases hjm : j = m
          · subst j
            rw [hafm] at haj
            cases haj
            exact h.child_gt m nm hnm c' hc'
          · rw [hafo j hjc hjp hjm] at haj
            exact h.child_gt j n haj c' hc'
    · intro j n haj q d hd
      by_cases hjc : j = c
      · subst j
        rw [hafc] at haj
        cases haj
        obtain ⟨md, hmd, hidx, hpar⟩ := h.pos c nc hc q d hd
        have hcd : c < d := (h.child_gt c nc hc d (List.getElem?_mem hd)).1
        have hdm : d ≠ m := by
          intro hh
          subst d
          rw [hnm] at hmd
          cases hmd
          rw [hnmpar] at hpar
          cases hpar
          exact hpc rfl
        refine ⟨md, ?_, hidx, hpar⟩
        rw [hafo d (by omega) (by omega) hdm]
        exact hmd
      · by_cases hjp : j = p
        · subst j
          rw [hafp] at haj
          cases haj
          have hd' : (swapRemove np.children nc.index)[q]? = some d := hd
          have hqlt : q < (swapRemove np.children nc.index).length := by
            obtain ⟨hh, -⟩ := List.getElem?_eq_some_iff.mp hd'
            exact hh
          by_cases hqj : q = j0
          · subst q
            rw [hm] at hd'
            cases hd'
            exact ⟨{ nm with index := j0 }, hafm, rfl, hnmpar⟩
          · have hqi : q ≠ nc.index := by
              rcases hqmcase with ⟨hii, hj0i, -⟩ | ⟨hieq, -, -⟩ <;> omega
            rw [hchar q, if_pos (by omega), if_neg hqi] at hd'
            obtain ⟨md, hmd, hidx, hpar⟩ := hupos q d hd'
            have hdc : d ≠ c := by
              intro hh
              subst d
              exact hqi (hconly q hd')
            have hdm : d ≠ m := by
              intro hh
              subst d
              have hqqm := hposinj q qm m hd' hqmget
              rcases hqmcase with ⟨hii, hj0i, hqm⟩ | ⟨hieq, hj0v, hqm⟩ <;> omega
            have hdp : d ≠ p := by
              have := (h.child_gt p np hpa d (List.getElem?_mem hd')).1
              omega
            refine ⟨md, ?_, hidx, hpar⟩
            rw [hafo d hdc hdp hdm]
            exact hmd
        · by_cases hjm : j = m
          · subst j
            rw [hafm] at haj
            cases haj
            have hd' : nm.children[q]? = some d := hd
            obtain ⟨md, hmd, hidx, hpar⟩ := h.pos m nm hnm q d hd'
            have hmd_gt : m < d := (h.child_gt m nm hnm d (List.getElem?_mem hd')).1
            have hdc : d ≠ c := by
              intro hh
              subst d
              rw [hc] at hmd
              cases hmd
              rw [hpp] at hpar
              have : p = m := Option.some.inj hpar
              omega
            have hdp : d ≠ p := by omega
            have hdm : d ≠ m := by omega
            refine ⟨md, ?_, hidx, hpar⟩
            rw [hafo d hdc hdp hdm]
            exact hmd
          · rw [hafo j hjc hjp hjm] at haj
            obtain ⟨md, hmd, hidx, hpar⟩ := h.pos j n haj q d hd
            by_cases hdp : d = p
            · subst d
              rw [hpa] at hmd
              cases hmd
              exact ⟨{ np with children := swapRemove np.children nc.index }, hafp, hidx, hpar⟩
            · have hdc : d ≠ c := by
                intro hh
                subst d
                rw [hc] at hmd
                cases hmd
                rw [hpp] at hpar
                exact hjp (Option.some.inj hpar).symm
              have hdm : d ≠ m := by
                intro hh
                subst d
                rw [hnm] at hmd
                cases hmd
                rw [hnmpar] at hpar
                exact hjp (Option.some.inj hpar).symm
              refine ⟨md, ?_, hidx, hpar⟩
              rw [hafo d hdc hdp hdm]
              exact hmd
    · intro j n haj q hq
      by_cases hjc : j = c
      · subst j
        rw [hafc] at haj
        cases haj
        have hq' : (none : Option Nat) = some q := hq
        exact Option.noConfusion hq'
      · by_cases hjp : j = p
        · subst j
          rw [hafp] at haj
          cases haj
          have hq' : np.parent = some q := hq
          obtain ⟨nq, hnq, hgetp⟩ := h.par p np hpa q hq'
          by_cases hqm : q = m
          · subst q
            rw [hnm] at hnq
            cases hnq
            exact ⟨{ nm with index := j0 }, hafm, hgetp⟩
          · have hqc : q ≠ c := by
              intro hh
              subst q
              rw [hc] at hnq
              cases hnq
              have := (h.child_gt c nc hc p (List.getElem?_mem hgetp)).1
              omega
            have hqp : q ≠ p := by
              intro hh
              subst q
              rw [hpa] at hnq
              cases hnq
              have := (h.child_gt p np hpa p (List.getElem?_mem hgetp)).1
              omega
            refine ⟨nq, ?_, hgetp⟩
            rw [hafo q hqc hqp hqm]
            exact hnq
        · by_cases hjm : j = m
          · subst j
            rw [hafm] at haj
            cases haj
            have hq' : nm.parent = some q := hq
            rw [hnmpar] at hq'
            have hqp : p = q := Option.some.inj hq'
            subst q
            exact ⟨{ np with children := swapRemove np.children nc.index }, hafp, hm⟩
          · rw [hafo j hjc hjp hjm] at haj
            obtain ⟨nq, hnq, hget⟩ := h.par j n haj q hq
            by_cases hqc : q = c
            · subst q
              rw [hc] at hnq
              cases hnq
              exact ⟨{ nc with parent := none }, hafc, hget⟩
            · by_cases hqm : q = m
              · subst q
                rw [hnm] at hnq
                cases hnq
                exact ⟨{ nm with index := j0 }, hafm, hget⟩
              · by_cases hqp : q = p
                · subst q
                  rw [hpa] at hnq
                  cases hnq
                  have hne_i : n.index ≠ nc.index := by
                    intro hh
                    rw [hh, hgetc] at hget
                    cases hget
                    exact hjc rfl
                  have hne_qm : n.index ≠ qm := by
                    intro hh
                    rw [hh, hqmget] at hget
                    cases hget
                    exact hjm rfl
                  have hlt : n.index < np.children.length := by
                    obtain ⟨hh, -⟩ := List.getElem?_eq_some_iff.mp hget
                    exact hh
                  refine ⟨{ np with children := swapRemove np.children nc.index }, hafp, ?_⟩
                  have hlt2 : n.index < np.children.length - 1 := by
                    rcases hqmcase with ⟨hii, -, hqm'⟩ | ⟨hieq, -, -⟩ <;> omega
                  rw [hchar n.index, if_pos (by omega), if_neg hne_i]
                  exact hget
                · refine ⟨nq, ?_, hget⟩
                  rw [hafo q hqc hqp hqm]
                  exact hnq

/-! ### Reach and subKeys lemmas -/

theorem childrenOf_eq_of_some {a : Arena K T} {i : Nat} {n : Node K T} (h : a i = some n) :
    childrenOf a i = n.children := by rw [childrenOf, h]; rfl

theorem childrenOf_eq_of_none {a : Arena K T} {i : Nat} (h : a i = none) :
    childrenOf a i = [] := by rw [childrenOf, h]; rfl

theorem mem_childrenOf_elim {a : Arena K T} {i c : Nat} (h : c ∈ childrenOf a i) :
    ∃ n, a i = some n ∧ c ∈ n.children := by
  cases ha : a i with
  | none =>
    rw [childrenOf_eq_of_none ha] at h
    simp at h
  | some n => exact ⟨n, rfl, by rwa [childrenOf_eq_of_some ha] at h⟩

theorem reach_mono {a a' : Arena K T} (hsub : ∀ i, childrenOf a i ⊆ childrenOf a' i)
    {r x : Nat} (hx : Reach a r x) : Reach a' r x := by
  induction hx with
  | refl => exact Reach.refl
  | step hr hcx ih => exact Reach.step ih (hsub _ hcx)

theorem ArenaWF.reach_le {a : Arena K T} {size : Nat} (h : ArenaWF a size) {r x : Nat}
    (hx : Reach a r x) : r ≤ x := by
  induction hx with
  | refl => exact Nat.le_refl r
  | step hr hcx ih =>
    obtain ⟨n, ha, hmem⟩ := mem_childrenOf_elim hcx
    have := (h.child_gt _ n ha _ hmem).1
    omega

theorem flatMap_congr_mem {α β : Type} {l : List α} {f g : α → List β}
    (h : ∀ x ∈ l, f x = g x) : l.flatMap f = l.flatMap g := by
  induction l with
  | nil => rfl
  | cons x xs ih =>
    rw [List.flatMap_cons, List.flatMap_cons, h x (List.mem_cons_self x xs),
      ih (fun y hy => h y (List.mem_cons_of_mem x hy))]

theorem mem_subKeys_sound {a : Arena K T} {fuel i0 : Nat} {k' : K}
    (h : k' ∈ subKeys a fuel i0) :
    ∃ d nd, Reach a i0 d ∧ a d = some nd ∧ nd.key = k' := by
  induction fuel generalizing i0 with
  | zero => simp [subKeys] at h
  | succ fuel ih =>
    cases ha : a i0 with
    | none => simp [subKeys, ha] at h
    | some n =>
      simp only [subKeys, ha] at h
      rcases List.mem_append.mp h with h1 | h1
      · obtain ⟨c, hcmem, hck⟩ := List.mem_flatMap.mp h1
        obtain ⟨d, nd, hreach, hnd, hkey⟩ := ih hck
        refine ⟨d, nd, ?_, hnd, hkey⟩
        have hcr : Reach a i0 c :=
          Reach.step Reach.refl (by rwa [childrenOf_eq_of_some ha])
        exact hcr.trans hreach
      · have hk : k' = n.key := by simpa using h1
        exact ⟨i0, n, Reach.refl, ha, hk.symm⟩

theorem mem_subKeys_complete {a : Arena K T} {size : Nat} (h : ArenaWF a size) :
    ∀ (fuel i0 d : Nat) (nd : Node K T), Reach a i0 d → a d = some nd →
      size - i0 ≤ fuel → nd.key ∈ subKeys a fuel i0 := by
  intro fuel
  induction fuel with
  | zero =>
    intro i0 d nd hreach hnd hfuel
    exfalso
    rcases hreach.head_cases with rfl | ⟨c, hcmem, -⟩
    · have : d < size := (h.dom d).mp (by rw [hnd]; rfl)
      omega
    · obtain ⟨n0, ha0, -⟩ := mem_childrenOf_elim hcmem
      have : i0 < size := (h.dom i0).mp (by rw [ha0]; rfl)
      omega
  | succ fuel ih =>
    intro i0 d nd hreach hnd hfuel
    rcases hreach.head_cases with rfl | ⟨c, hcmem, hcd⟩
    · simp only [subKeys, hnd]
      exact List.mem_append.mpr (Or.inr (by simp))
    · obtain ⟨n0, ha0, hcmem'⟩ := mem_childrenOf_elim hcmem
      have hgt := (h.child_gt i0 n0 ha0 c hcmem').1
      have hcsize := (h.child_gt i0 n0 ha0 c hcmem').2
      have hrec : nd.key ∈ subKeys a fuel c := ih c d nd hcd hnd (by omega)
      simp only [subKeys, ha0]
      exact List.mem_append.mpr (Or.inl (List.mem_flatMap.mpr ⟨c, hcmem', hrec⟩))

theorem subKeys_congr {a a' : Arena K T}
    (hgt : ∀ i n, a i = some n → ∀ c ∈ n.children, i < c) :
    ∀ (fuel i0 : Nat),
      (∀ j, i0 ≤ j → (a' j).map (fun n => (n.children, n.key)) =
        (a j).map (fun n => (n.children, n.key))) →
      subKeys a' fuel i0 = subKeys a fuel i0 := by
  intro fuel
  induction fuel with
  | zero => intro i0 hagree; rfl
  | succ fuel ih =>
    intro i0 hagree
    have h0 := hagree i0 (Nat.le_refl i0)
    cases ha : a i0 with
    | none =>
      rw [ha] at h0
      have h0' : a' i0 = none := by
        cases ha' : a' i0 with
        | none => rfl
        | some nn =>
          rw [ha'] at h0
          simp at h0
      simp [subKeys, ha, h0']
    | some n =>
      rw [ha] at h0
      cases ha' : a' i0 with
      | none =>
        rw [ha'] at h0
        simp at h0
      | some n' =>
        rw [ha'] at h0
        have hpair : (n'.children, n'.key) = (n.children, n.key) := by simpa using h0
        have hch : n'.children = n.children := congrArg Prod.fst hpair
        have hk : n'.key = n.key := congrArg Prod.snd hpair
        simp only [subKeys, ha, ha']
        rw [hch, hk]
        have : n.children.flatMap (subKeys a' fuel) = n.children.flatMap (subKeys a fuel) := by
          apply flatMap_congr_mem
          intro c hcmem
          exact ih c (fun j hj => hagree j (by have := hgt i0 n ha c hcmem; omega))
        rw [this]

theorem abandon_map_parent_ne (a : Arena K T) {p c j : Nat} (hj : j ≠ c) :
    ((Node.abandon a p c) j).map Node.parent = (a j).map Node.parent := by
  simp only [Node.abandon]
  split
  · exact (upd_map_parent_of_preserve j (by intro n; rfl)).trans
      ((upd_map_parent_of_preserve j (by intro n; rfl)).trans (by rw [upd_ne hj]))
  · exact (upd_map_parent_of_preserve j (by intro n; rfl)).trans (by rw [upd_ne hj])

theorem abandon_agree_ne {a : Arena K T} {p c : Nat} (j : Nat) (hj : j ≠ p) :
    ((Node.abandon a p c) j).map (fun n => (n.children, n.key)) =
      (a j).map (fun n => (n.children, n.key)) := by
  have hk := abandon_map_key a p c j
  have hch := abandon_childrenOf_ne a (c := c) hj
  have hs := abandon_isSome a p c j
  cases ha : a j with
  | none =>
    rw [ha] at hs
    have hnone : (Node.abandon a p c) j = none := by
      cases hab : (Node.abandon a p c) j with
      | none => rfl
      | some nn =>
        rw [hab] at hs
        simp at hs
    rw [hnone]
  | some n =>
    rw [ha] at hs
    cases hab : (Node.abandon a p c) j with
    | none =>
      rw [hab] at hs
      simp at hs
    | some n' =>
      have hch' : n'.children = n.children := by
        have e1 := childrenOf_eq_of_some (a := Node.abandon a p c) hab
        have e2 := childrenOf_eq_of_some (a := a) ha
        rw [e1, e2] at hch
        exact hch
      have hk' : n'.key = n.key := by
        rw [hab, ha] at hk
        simpa using hk
      simp [hch', hk']

/-- After abandoning `c` from its recorded parent, every node that was
reachable from `r` other than through the subtree of `c` is still
reachable: the only removed edge is the one from `p` to `c`. -/
theorem reach_after_abandon {a : Arena K T} {size : Nat} (h : ArenaWF a size)
    {c p : Nat} {nc : Node K T} (hc : a c = some nc) (hpp : nc.parent = some p)
    {r x : Nat} (hx : Reach a r x) (hnx : ¬ Reach a c x) :
    Reach (Node.abandon a p c) r x := by
  obtain ⟨np, hpa, hgetc⟩ := h.par c nc hc p hpp
  have hilen : nc.index < np.children.length := by
    obtain ⟨hh, -⟩ := List.getElem?_eq_some_iff.mp hgetc
    exact hh
  have hival : ((a c).map Node.index).getD 0 = nc.index := by rw [hc]; rfl
  have hchp : childrenOf (Node.abandon a p c) p = swapRemove np.children nc.index := by
    rw [abandon_childrenOf_self, hival, childrenOf_eq_of_some hpa]
  have hchar := swapRemove_getElem? (l := np.children) hilen
  have hposinj : ∀ (q q' d : Nat), np.children[q]? = some d → np.children[q']? = some d →
      q = q' := by
    intro q q' d h1 h2
    obtain ⟨m1, hm1, hi1, -⟩ := h.pos p np hpa q d h1
    obtain ⟨m2, hm2, hi2, -⟩ := h.pos p np hpa q' d h2
    rw [hm1] at hm2
    cases hm2
    omega
  revert hnx
  induction hx with
  | refl => intro hnx; exact Reach.refl
  | step hr hcx ih =>
    rename_i i c2
    intro hnx
    have hni : ¬ Reach a c i := fun hri => hnx (Reach.step hri hcx)
    have hrec := ih hni
    have hc2 : c2 ≠ c := fun hh => hnx (hh ▸ Reach.refl)
    by_cases hip : i = p
    · subst i
      obtain ⟨n0, ha0, hmem⟩ := mem_childrenOf_elim hcx
      rw [hpa] at ha0
      cases ha0
      obtain ⟨q, hq⟩ := List.mem_iff_getElem?.mp hmem
      have hqlen : q < np.children.length := by
        obtain ⟨hh, -⟩ := List.getElem?_eq_some_iff.mp hq
        exact hh
      have hqi : q ≠ nc.index := by
        intro hh
        rw [hh, hgetc] at hq
        cases hq
        exact hc2 rfl
      have hmem' : c2 ∈ swapRemove np.children nc.index := by
        by_cases hql : q < np.children.length - 1
        · refine List.getElem?_mem (l := swapRemove np.children nc.index) (n := q) ?_
          rw [hchar q, if_pos hql, if_neg hqi]
          exact hq
        · have hqlast : q = np.children.length - 1 := by omega
          have hii : nc.index < np.children.length - 1 := by omega
          refine List.getElem?_mem (l := swapRemove np.children nc.index) (n := nc.index) ?_
          rw [hchar nc.index, if_pos hii, if_pos rfl]
          rw [hqlast] at hq
          exact hq
      exact Reach.step hrec (by rwa [hchp])
    · exact Reach.step hrec (by rwa [abandon_childrenOf_ne a (c := c) hip])

/-! ### WF preservation -/

theorem WF.new_wf [DecidableEq K] (root_key : K) (root_value : T) :
    WF (MultiIndexedTree.new root_key root_value) := by
  refine ⟨⟨?_, ?_, ?_, ?_⟩, rfl, Nat.zero_lt_one, ?_, ?_, ?_⟩
  · intro i
    by_cases hi : i = 0 <;> simp [MultiIndexedTree.new, hi]
  · intro i n hi c hc
    by_cases h0 : i = 0
    · subst i
      simp [MultiIndexedTree.new] at hi
      rw [← hi] at hc
      simp at hc
    · simp [MultiIndexedTree.new, h0] at hi
  · intro i n hi q d hd
    by_cases h0 : i = 0
    · subst i
      simp [MultiIndexedTree.new] at hi
      rw [← hi] at hd
      simp at hd
    · simp [MultiIndexedTree.new, h0] at hi
  · intro i n hi q hq
    by_cases h0 : i = 0
    · subst i
      simp [MultiIndexedTree.new] at hi
      rw [← hi] at hq
      simp at hq
    · simp [MultiIndexedTree.new, h0] at hi
  · intro n hn
    simp [MultiIndexedTree.new] at hn
    rw [← hn]
  · intro k id hk
    simp only [MultiIndexedTree.new, mapInsert, mapErase, mapLookup] at hk
    by_cases hkk : root_key = k
    · rw [if_pos hkk] at hk
      cases hk
      exact ⟨⟨[], 0, none, root_value, root_key⟩, by simp [MultiIndexedTree.new], hkk⟩
    · rw [if_neg hkk] at hk
      cases hk
  · intro k id hk
    simp only [MultiIndexedTree.new, mapInsert, mapErase, mapLookup] at hk
    by_cases hkk : root_key = k
    · rw [if_pos hkk] at hk
      cases hk
      exact Reach.refl
    · rw [if_neg hkk] at hk
      cases hk

theorem WF.addTag_wf [DecidableEq K] {t : MultiIndexedTree K T} (h : WF t)
    (tag : String) (k : K) : WF (t.add_to_secondary_index tag k) := by
  obtain ⟨hawf, h1, h2, h3, h4, h5⟩ := h
  exact ⟨hawf, h1, h2, h3, h4, h5⟩

/-- Build `WF` from components stated over the plain fields. -/
theorem WF.mk' [DecidableEq K] {size root : Nat} {arena : Arena K T}
    {index : List (K × Nat)} {secondary : List (String × List K)}
    (hawf : ArenaWF arena size) (h1 : root = 0) (h2 : root < size)
    (h3 : ∀ n, arena root = some n → n.parent = none)
    (h4 : ∀ k id, mapLookup index k = some id → ∃ n, arena id = some n ∧ n.key = k)
    (h5 : ∀ k id, mapLookup index k = some id → Reach arena root id) :
    WF (⟨size, arena, root, index, secondary⟩ : MultiIndexedTree K T) :=
  ⟨hawf, h1, h2, h3, h4, h5⟩

theorem WF.remove_pres [DecidableEq K] {t : MultiIndexedTree K T} (h : WF t) (k : K) :
    WF (t.remove k).2 := by
  cases hlook : mapLookup t.index k with
  | none =>
    have heq : (t.remove k).2 = t := by
      simp [MultiIndexedTree.remove, hlook]
    rw [heq]
    exact h
  | some id =>
    obtain ⟨n, hid, hkey⟩ := h.key_con k id hlook
    have hbind : (t.arena id).bind Node.parent = n.parent := by rw [hid]; rfl
    cases hpar : n.parent with
    | none =>
      have heq : (t.remove k).2 = (⟨t.size, t.arena, t.root,
          (subKeys t.arena t.size id).foldl (fun m k => mapErase m k) t.index,
          t.secondary_index⟩ : MultiIndexedTree K T) := by
        simp only [MultiIndexedTree.remove, hlook, Node.detach, hbind, hpar]
      rw [heq]
      refine WF.mk' h.awf h.root_zero h.root_lt h.root_par ?_ ?_
      · intro k' id' hk'
        rw [mapLookup_eraseAll] at hk'
        by_cases hmem : k' ∈ subKeys t.arena t.size id
        · rw [if_pos hmem] at hk'
          cases hk'
        · rw [if_neg hmem] at hk'
          exact h.key_con k' id' hk'
      · intro k' id' hk'
        rw [mapLookup_eraseAll] at hk'
        by_cases hmem : k' ∈ subKeys t.arena t.size id
        · rw [if_pos hmem] at hk'
          cases hk'
        · rw [if_neg hmem] at hk'
          exact h.idx_reach k' id' hk'
    | some p =>
      have heq : (t.remove k).2 = (⟨t.size, Node.abandon t.arena p id, t.root,
          (subKeys (Node.abandon t.arena p id) t.size id).foldl
            (fun m k => mapErase m k) t.index,
          t.secondary_index⟩ : MultiIndexedTree K T) := by
        simp only [MultiIndexedTree.remove, hlook, Node.detach, hbind, hpar]
      rw [heq]
      have hawf' := h.awf.abandon_pres hid hpar
      have hplt : p < id := by
        obtain ⟨np, hpa, hget⟩ := h.awf.par id n hid p hpar
        exact (h.awf.child_gt p np hpa id (List.getElem?_mem hget)).1
      have hks : subKeys (Node.abandon t.arena p id) t.size id =
          subKeys t.arena t.size id := by
        refine subKeys_congr (fun i nn hi c hc => (h.awf.child_gt i nn hi c hc).1)
          t.size id (fun j hj => abandon_agree_ne j ?_)
        omega
      have hidroot : id ≠ t.root := by
        intro hh
        subst id
        rw [h.root_par n hid] at hpar
        cases hpar
      refine WF.mk' hawf' h.root_zero h.root_lt ?_ ?_ ?_
      · intro n' hn'
        have hfr := abandon_map_parent_ne t.arena (p := p) (Ne.symm hidroot)
        rw [hn'] at hfr
        obtain ⟨nr, hnr, hnrp⟩ := Option.map_eq_some'.mp hfr.symm
        rw [h.root_par nr hnr] at hnrp
        exact hnrp.symm
      · intro k' id' hk'
        rw [hks, mapLookup_eraseAll] at hk'
        by_cases hmem : k' ∈ subKeys t.arena t.size id
        · rw [if_pos hmem] at hk'
          cases hk'
        · rw [if_neg hmem] at hk'
          obtain ⟨n2, ha2, hk2⟩ := h.key_con k' id' hk'
          have hfr := abandon_map_key t.arena p id id'
          rw [ha2] at hfr
          obtain ⟨n2', hn2', hn2k⟩ := Option.map_eq_some'.mp hfr
          exact ⟨n2', hn2', by rw [hn2k, hk2]⟩
      · intro k' id' hk'
        rw [hks, mapLookup_eraseAll] at hk'
        by_cases hmem : k' ∈ subKeys t.arena t.size id
        · rw [if_pos hmem] at hk'
          cases hk'
        · rw [if_neg hmem] at hk'
          obtain ⟨n2, ha2, hk2⟩ := h.key_con k' id' hk'
          have hreach := h.idx_reach k' id' hk'
          have hnreach : ¬ Reach t.arena id id' := by
            intro hri
            have := mem_subKeys_complete h.awf t.size id id' n2 hri ha2 (by omega)
            rw [hk2] at this
            exact hmem this
          exact reach_after_abandon h.awf hid hpar hreach hnreach

/-- Pointwise description of `Node.attach` for a fresh leaf (no parent):
the detach inside is structurally a no-op, and the node is appended as the
parent's last child with its cached index set to the old child count. -/
theorem attach_fresh_eq [DecidableEq K] {a0 : Arena K T} {size self pid : Nat}
    {n0 npd : Node K T} (hself : a0 self = some n0)
    (hn0p : n0.parent = none) (hpd : a0 pid = some npd) (hpid : pid ≠ self)
    (index : List (K × Nat)) :
    Node.attach a0 size self pid index =
      (fun j =>
        if j = self then some { n0 with index := npd.children.length, parent := some pid }
        else if j = pid then some { npd with children := npd.children ++ [self] }
        else a0 j,
       (subKeys a0 size self).foldl (fun m k => mapErase m k) index) := by
  have hbind : (a0 self).bind Node.parent = none := by
    rw [hself]
    simp [hn0p]
  simp only [Node.attach, Node.detach, hbind]
  congr 1
  funext j
  by_cases hj : j = self
  · subst j
    rw [upd_ne (Ne.symm hpid), upd_self, upd_self, hself]
    simp [childrenOf_eq_of_some hpd]
  · by_cases hjp : j = pid
    · subst j
      rw [upd_self, upd_ne hpid, upd_ne hpid, hpd]
      simp [hpid]
    · rw [upd_ne hjp, upd_ne hj, upd_ne hj]
      simp [hj, hjp]

/-- Pointwise description of `insert` when the parent key is present: the
fresh node is allocated at id `t.size` as the parent's last child, and the
primary index maps `k` to it (after the erase performed by the fresh
node's `detach`). -/
theorem insert_eq [DecidableEq K] {t : MultiIndexedTree K T} {p : K} {pid : Nat}
    {npd : Node K T} (hp : mapLookup t.index p = some pid) (hpd : t.arena pid = some npd)
    (hpid : pid ≠ t.size) (k : K) (v : T) :
    t.insert p k v = (Except.ok (),
      ⟨t.size + 1,
        fun j =>
          if j = t.size then some ⟨[], npd.children.length, some pid, v, k⟩
          else if j = pid then some { npd with children := npd.children ++ [t.size] }
          else t.arena j,
        t.root,
        mapInsert (mapErase t.index k) k t.size,
        t.secondary_index⟩) := by
  have ha0self : (fun j => if j = t.size then some (⟨[], 0, none, v, k⟩ : Node K T)
      else t.arena j) t.size = some ⟨[], 0, none, v, k⟩ := by simp
  have ha0pid : (fun j => if j = t.size then some (⟨[], 0, none, v, k⟩ : Node K T)
      else t.arena j) pid = some npd := by simp [hpid, hpd]
  have hsubk : subKeys (fun j => if j = t.size then some (⟨[], 0, none, v, k⟩ : Node K T)
      else t.arena j) (t.size + 1) t.size = [k] := by
    simp [subKeys, ha0self]
  simp only [MultiIndexedTree.insert, hp, Node.adopt]
  rw [attach_fresh_eq ha0self rfl ha0pid hpid t.index, hsubk]
  have harena : (fun j =>
      if j = t.size then
        some { (⟨[], 0, none, v, k⟩ : Node K T) with
          index := npd.children.length, parent := some pid }
      else if j = pid then some { npd with children := npd.children ++ [t.size] }
      else if j = t.size then some (⟨[], 0, none, v, k⟩ : Node K T) else t.arena j) =
      (fun j =>
        if j = t.size then some (⟨[], npd.children.length, some pid, v, k⟩ : Node K T)
        else if j = pid then some { npd with children := npd.children ++ [t.size] }
        else t.arena j) := by
    funext j
    by_cases hj : j = t.size
    · simp [hj]
    · simp [hj]
  rw [harena]
  rfl

/-- A few consequences of `ArenaWF.dom`. -/
theorem ArenaWF.none_of_le {a : Arena K T} {size : Nat} (h : ArenaWF a size) {i : Nat}
    (hi : size ≤ i) : a i = none := by
  cases ha : a i with
  | none => rfl
  | some n =>
    have := (h.dom i).mp (by rw [ha]; rfl)
    omega

theorem ArenaWF.lt_of_some {a : Arena K T} {size : Nat} (h : ArenaWF a size) {i : Nat}
    {n : Node K T} (hi : a i = some n) : i < size :=
  (h.dom i).mp (by rw [hi]; rfl)

theorem WF.insert_pres [DecidableEq K] {t : MultiIndexedTree K T} (h : WF t)
    (p k : K) (v : T) : WF (t.insert p k v).2 := by
  cases hlook : mapLookup t.index p with
  | none =>
    have heq : (t.insert p k v).2 = t := by
      simp [MultiIndexedTree.insert, hlook]
    rw [heq]
    exact h
  | some pid =>
    obtain ⟨npd, hpd, hpdkey⟩ := h.key_con p pid hlook
    have hpid_lt : pid < t.size := h.awf.lt_of_some hpd
    have hpid : pid ≠ t.size := by omega
    have heq : (t.insert p k v).2 = ⟨t.size + 1,
        fun j =>
          if j = t.size then some ⟨[], npd.children.length, some pid, v, k⟩
          else if j = pid then some { npd with children := npd.children ++ [t.size] }
          else t.arena j,
        t.root,
        mapInsert (mapErase t.index k) k t.size,
        t.secondary_index⟩ := by
      rw [insert_eq hlook hpd hpid k v]
    rw [heq]
    set A : Arena K T := fun j =>
        if j = t.size then some (⟨[], npd.children.length, some pid, v, k⟩ : Node K T)
        else if j = pid then some { npd with children := npd.children ++ [t.size] }
        else t.arena j with hAdef
    have hAself : A t.size = some ⟨[], npd.children.length, some pid, v, k⟩ := by
      rw [hAdef]
      simp
    have hApid : A pid = some { npd with children := npd.children ++ [t.size] } := by
      rw [hAdef]
      simp [hpid]
    have hAo : ∀ j, j ≠ t.size → j ≠ pid → A j = t.arena j := by
      intro j hj hjp
      rw [hAdef]
      simp [hj, hjp]
    have hfresh_none : t.arena t.size = none := h.awf.none_of_le (Nat.le_refl _)
    have hsub : ∀ i, childrenOf t.arena i ⊆ childrenOf A i := by
      intro i x hx
      obtain ⟨n1, hn1, hmem⟩ := mem_childrenOf_elim hx
      by_cases hi : i = t.size
      · subst i
        rw [hfresh_none] at hn1
        cases hn1
      · by_cases hip : i = pid
        · subst i
          rw [hpd] at hn1
          cases hn1
          rw [childrenOf_eq_of_some hApid]
          exact List.mem_append_left _ hmem
        · have hAi : A i = some n1 := by rw [hAo i hi hip]; exact hn1
          rw [childrenOf_eq_of_some hAi]
          exact hmem
    refine WF.mk' ⟨?_, ?_, ?_, ?_⟩ h.root_zero (by have := h.root_lt; omega) ?_ ?_ ?_
    · -- dom
      intro i
      by_cases hi : i = t.size
      · subst i
        rw [hAself]
        simp
      · by_cases hip : i = pid
        · subst i
          rw [hApid]
          simp
          omega
        · rw [hAo i hi hip, h.awf.dom i]
          omega
    · -- child_gt
      intro i n hi c hc
      by_cases hieq : i = t.size
      · subst i
        rw [hAself] at hi
        cases hi
        simp at hc
      · by_cases hip : i = pid
        · subst i
          rw [hApid] at hi
          cases hi
          rcases List.mem_append.mp hc with hc1 | hc1
          · have := h.awf.child_gt pid npd hpd c hc1
            omega
          · have : c = t.size := by simpa using hc1
            omega
        · rw [hAo i hieq hip] at hi
          have := h.awf.child_gt i n hi c hc
          omega
    · -- pos
      intro i n hi q d hd
      by_cases hieq : i = t.size
      · subst i
        rw [hAself] at hi
        cases hi
        simp at hd
      · by_cases hip : i = pid
        · subst i
          rw [hApid] at hi
          cases hi
          have hd' : (npd.children ++ [t.size])[q]? = some d := hd
          have hqbound : q < npd.children.length + 1 := by
            obtain ⟨hh, -⟩ := List.getElem?_eq_some_iff.mp hd'
            simpa using hh
          by_cases hq : q < npd.children.length
          · rw [List.getElem?_append_left hq] at hd'
            obtain ⟨md, hmd, hidx, hpar⟩ := h.awf.pos pid npd hpd q d hd'
            have hdlt := (h.awf.child_gt pid npd hpd d (List.getElem?_mem hd')).2
            have hdgt := (h.awf.child_gt pid npd hpd d (List.getElem?_mem hd')).1
            refine ⟨md, ?_, hidx, hpar⟩
            rw [hAo d (by omega) (by omega)]
            exact hmd
          · have hqeq : q = npd.children.length := by omega
            subst q
            rw [List.getElem?_concat_length] at hd'
            cases hd'
            exact ⟨⟨[], npd.children.length, some pid, v, k⟩, hAself, rfl, rfl⟩
        · rw [hAo i hieq hip] at hi
          obtain ⟨md, hmd, hidx, hpar⟩ := h.awf.pos i n hi q d hd
          have hd_lt := (h.awf.child_gt i n hi d (List.getElem?_mem hd)).2
          by_cases hdp : d = pid
          · subst d
            rw [hpd] at hmd
            cases hmd
            exact ⟨{ npd with children := npd.children ++ [t.size] }, hApid, hidx, hpar⟩
          · refine ⟨md, ?_, hidx, hpar⟩
            rw [hAo d (by omega) hdp]
            exact hmd
    · -- par
      intro i n hi q hq
      by_cases hieq : i = t.size
      · subst i
        rw [hAself] at hi
        cases hi
        have hq' : some pid = some q := hq
        cases hq'
        refine ⟨{ npd with children := npd.children ++ [t.size] }, hApid, ?_⟩
        exact List.getElem?_concat_length _ _
      · by_cases hip : i = pid
        · subst i
          rw [hApid] at hi
          cases hi
          have hq' : npd.parent = some q := hq
          obtain ⟨nq, hnq, hget⟩ := h.awf.par pid npd hpd q hq'
          have hq_lt := h.awf.lt_of_some hnq
          have hqpid : q ≠ pid := by
            intro hh
            subst q
            rw [hpd] at hnq
            cases hnq
            have := (h.awf.child_gt pid npd hpd pid (List.getElem?_mem hget)).1
            omega
          refine ⟨nq, ?_, hget⟩
          rw [hAo q (by omega) hqpid]
          exact hnq
        · rw [hAo i hieq hip] at hi
          obtain ⟨nq, hnq, hget⟩ := h.awf.par i n hi q hq
          have hq_lt := h.awf.lt_of_some hnq
          by_cases hqpid : q = pid
          · subst q
            rw [hpd] at hnq
            cases hnq
            refine ⟨{ npd with children := npd.children ++ [t.size] }, hApid, ?_⟩
            have hilen : n.index < npd.children.length := by
              obtain ⟨hh, -⟩ := List.getElem?_eq_some_iff.mp hget
              exact hh
            rw [List.getElem?_append_left hilen]
            exact hget
          · refine ⟨nq, ?_, hget⟩
            rw [hAo q (by omega) hqpid]
            exact hnq
    · -- root_par
      intro n hn
      have hroot_lt := h.root_lt
      by_cases hre : t.root = t.size
      · omega
      · by_cases hrp : t.root = pid
        · rw [hrp, hApid] at hn
          cases hn
          exact h.root_par npd (by rw [← hrp] at hpd; exact hpd)
        · rw [hAo t.root hre hrp] at hn
          exact h.root_par n hn
    · -- key_con
      intro k' id' hk'
      by_cases hkk : k' = k
      · subst k'
        rw [mapLookup_mapInsert_self] at hk'
        cases hk'
        exact ⟨⟨[], npd.children.length, some pid, v, k⟩, hAself, rfl⟩
      · rw [mapLookup_mapInsert_ne _ _ hkk, mapLookup_mapErase_ne _ hkk] at hk'
        obtain ⟨n2, ha2, hk2⟩ := h.key_con k' id' hk'
        have hid_lt := h.awf.lt_of_some ha2
        by_cases hidp : id' = pid
        · subst id'
          rw [hpd] at ha2
          cases ha2
          exact ⟨{ npd with children := npd.children ++ [t.size] }, hApid, hk2⟩
        · refine ⟨n2, ?_, hk2⟩
          rw [hAo id' (by omega) hidp]
          exact ha2
    · -- idx_reach
      intro k' id' hk'
      by_cases hkk : k' = k
      · subst k'
        rw [mapLookup_mapInsert_self] at hk'
        cases hk'
        have hreach_pid : Reach A t.root pid := reach_mono hsub (h.idx_reach p pid hlook)
        refine Reach.step hreach_pid ?_
        rw [childrenOf_eq_of_some hApid]
        simp
      · rw [mapLookup_mapInsert_ne _ _ hkk, mapLookup_mapErase_ne _ hkk] at hk'
        exact reach_mono hsub (h.idx_reach k' id' hk')

theorem WF.applyOp_pres [DecidableEq K] {t : MultiIndexedTree K T} (h : WF t) (op : Op K T) :
    WF (applyOp t op) := by
  cases op with
  | insert p k v => exact h.insert_pres p k v
  | remove k => exact h.remove_pres k
  | addTag tag k => exact h.addTag_wf tag k

theorem WF.applyOps_pres [DecidableEq K] {t : MultiIndexedTree K T} (h : WF t)
    (ops : List (Op K T)) : WF (applyOps t ops) := by
  induction ops generalizing t with
  | nil => exact h
  | cons op rest ih => exact ih (h.applyOp_pres op)

/-- Every tree built by the public API is well-formed. -/
theorem Reachable.wf [DecidableEq K] {t : MultiIndexedTree K T} (h : Reachable t) : WF t := by
  obtain ⟨rk, rv, ops, rfl⟩ := h
  exact (WF.new_wf rk rv).applyOps_pres ops

/-! ### Iterator lemmas -/

theorem dfsRun_nil (a : Arena K T) : ∀ fuel, dfsRun a fuel [] = [] := by
  intro fuel
  cases fuel <;> rfl

theorem bfsRun_nil (a : Arena K T) : ∀ fuel, bfsRun a fuel [] = [] := by
  intro fuel
  cases fuel <;> rfl

theorem dfsRun_succ_cons (a : Arena K T) (fuel i : Nat) (rest : List Nat) :
    dfsRun a (fuel + 1) (i :: rest) = i :: dfsRun a fuel (childrenOf a i ++ rest) := rfl

theorem bfsRun_succ_cons (a : Arena K T) (fuel i : Nat) (rest : List Nat) :
    bfsRun a (fuel + 1) (i :: rest) = i :: bfsRun a fuel (rest ++ childrenOf a i) := rfl

theorem spRun_eq_bfsRun (a : Arena K T) :
    ∀ (fuel : Nat) (q : List (Nat × Nat)), spRun a fuel q = bfsRun a fuel (q.map Prod.snd) := by
  intro fuel
  induction fuel with
  | zero => intro q; rfl
  | succ fuel ih =>
    intro q
    cases q with
    | nil => rfl
    | cons e rest =>
      obtain ⟨d, i⟩ := e
      simp only [spRun, bfsRun, List.map_cons]
      rw [ih]
      congr 1
      simp

/-- C3: the shortest-path iterator emits exactly the same sequence of nodes
as the breadth-first iterator, for every tree and any number of steps: the
depth counter it carries never reorders or filters the emission. -/
theorem iter_shortest_path_eq_iter_breadth_first (t : MultiIndexedTree K T) (fuel : Nat) :
    t.iter_shortest_path fuel = t.iter_breadth_first fuel := by
  rw [MultiIndexedTree.iter_shortest_path, MultiIndexedTree.iter_breadth_first,
    spRun_eq_bfsRun]
  rfl

/-- C9: on the documented scenario tree the depth-first iterator yields the
keys in pre-order with children left to right, and the breadth-first
iterator yields level order, exactly as the unit tests assert — for any
fuel at least the five steps needed (after which the stack or queue is
empty and the iterator stops). -/
theorem scenario_traversal_orders : ∀ m : Nat,
    keysOf scenarioTree (scenarioTree.iter_depth_first (m + 5)) =
      ["root", "child1", "child1.1", "child2", "child2.1"] ∧
    keysOf scenarioTree (scenarioTree.iter_breadth_first (m + 5)) =
      ["root", "child1", "child2", "child1.1", "child2.1"] := by
  intro m
  constructor
  · rw [MultiIndexedTree.iter_depth_first]
    rw [show m + 5 = (m + 4) + 1 by omega, dfsRun_succ_cons,
      show childrenOf scenarioTree.arena scenarioTree.root ++ ([] : List Nat) = [1, 2] by decide,
      show m + 4 = (m + 3) + 1 by omega, dfsRun_succ_cons,
      show childrenOf scenarioTree.arena 1 ++ [2] = [3, 2] by decide,
      show m + 3 = (m + 2) + 1 by omega, dfsRun_succ_cons,
      show childrenOf scenarioTree.arena 3 ++ [2] = [2] by decide,
      show m + 2 = (m + 1) + 1 by omega, dfsRun_succ_cons,
      show childrenOf scenarioTree.arena 2 ++ ([] : List Nat) = [4] by decide,
      dfsRun_succ_cons,
      show childrenOf scenarioTree.arena 4 ++ ([] : List Nat) = ([] : List Nat) by decide,
      dfsRun_nil]
    decide
  · rw [MultiIndexedTree.iter_breadth_first]
    rw [show m + 5 = (m + 4) + 1 by omega, bfsRun_succ_cons,
      show ([] : List Nat) ++ childrenOf scenarioTree.arena scenarioTree.root = [1, 2] by decide,
      show m + 4 = (m + 3) + 1 by omega, bfsRun_succ_cons,
      show [2] ++ childrenOf scenarioTree.arena 1 = [2, 3] by decide,
      show m + 3 = (m + 2) + 1 by omega, bfsRun_succ_cons,
      show [3] ++ childrenOf scenarioTree.arena 2 = [3, 4] by decide,
      show m + 2 = (m + 1) + 1 by omega, bfsRun_succ_cons,
      show [4] ++ childrenOf scenarioTree.arena 3 = [4] by decide,
      bfsRun_succ_cons,
      show ([] : List Nat) ++ childrenOf scenarioTree.arena 4 = ([] : List Nat) by decide,
      bfsRun_nil]
    decide

/-- C2: after any sequence of public operations starting from `new`, every
non-root node reachable from the root sits at its cached index in its
parent's children list, and its parent back-reference points at that
parent. -/
theorem child_position_invariant [DecidableEq K] (root_key : K) (root_value : T)
    (ops : List (Op K T)) :
    ∀ i, Reach (applyOps (MultiIndexedTree.new root_key root_value) ops).arena
        (applyOps (MultiIndexedTree.new root_key root_value) ops).root i →
      i ≠ (applyOps (MultiIndexedTree.new root_key root_value) ops).root →
      ∃ (n np : Node K T) (p : Nat),
        (applyOps (MultiIndexedTree.new root_key root_value) ops).arena i = some n ∧
        n.parent = some p ∧
        (applyOps (MultiIndexedTree.new root_key root_value) ops).arena p = some np ∧
        np.children[n.index]? = some i := by
  intro i hreach hne
  have hwf : WF (applyOps (MultiIndexedTree.new root_key root_value) ops) :=
    (WF.new_wf root_key root_value).applyOps_pres ops
  cases hreach with
  | refl => exact absurd rfl hne
  | step hr hc =>
    obtain ⟨np0, hpj, hmem⟩ := mem_childrenOf_elim hc
    obtain ⟨q, hq⟩ := List.mem_iff_getElem?.mp hmem
    obtain ⟨n, hn, hidx, hpar⟩ := hwf.awf.pos _ np0 hpj q i hq
    refine ⟨n, np0, _, hn, hpar, hpj, ?_⟩
    rw [hidx]
    exact hq

/-- Witness for C2 at a concrete input: in `new "r" 0` followed by one
insert, node 1 is a non-root reachable node satisfying the invariant. -/
theorem child_position_invariant_witness :
    ∃ (n np : Node String Nat) (p : Nat),
      (applyOps (MultiIndexedTree.new "r" 0) [Op.insert "r" "c" 1]).arena 1 = some n ∧
      n.parent = some p ∧
      (applyOps (MultiIndexedTree.new "r" 0) [Op.insert "r" "c" 1]).arena p = some np ∧
      np.children[n.index]? = some 1 :=
  child_position_invariant "r" 0 [Op.insert "r" "c" 1] 1
    (Reach.step Reach.refl (by decide)) (by decide)

/-- C4: when the parent key is present, `insert(p, k, v)` returns `Ok`, and
afterwards `find(k)` yields the freshly allocated node, whose value is `v`
and whose parent is the node found under `p` (whose key is `p`). -/
theorem insert_then_find [DecidableEq K] {t : MultiIndexedTree K T} (h : Reachable t)
    {p : K} {pid : Nat} (hp : t.find p = some pid) (k : K) (v : T) :
    (t.insert p k v).1 = Except.ok () ∧
    (t.insert p k v).2.find k = some t.size ∧
    (∃ n np, (t.insert p k v).2.arena t.size = some n ∧ n.value = v ∧
      n.parent = some pid ∧ (t.insert p k v).2.arena pid = some np ∧ np.key = p) := by
  have hwf := h.wf
  rw [MultiIndexedTree.find] at hp
  obtain ⟨npd, hpd, hpdkey⟩ := hwf.key_con p pid hp
  have hpid : pid ≠ t.size := by
    have := hwf.awf.lt_of_some hpd
    omega
  rw [insert_eq hp hpd hpid k v]
  refine ⟨rfl, ?_, ?_⟩
  · show mapLookup (mapInsert (mapErase t.index k) k t.size) k = some t.size
    exact mapLookup_mapInsert_self _ _ _
  · refine ⟨⟨[], npd.children.length, some pid, v, k⟩,
      { npd with children := npd.children ++ [t.size] }, ?_, rfl, rfl, ?_, hpdkey⟩
    · simp
    · simp [hpid]

/-- Witness for C4 on the singleton tree: inserting `"c"` under the root
key `"r"` succeeds and `find "c"` returns the fresh node with the right
value and parent. -/
theorem insert_then_find_witness :
    ((MultiIndexedTree.new "r" (0 : Nat)).insert "r" "c" 1).1 = Except.ok () ∧
    ((MultiIndexedTree.new "r" (0 : Nat)).insert "r" "c" 1).2.find "c" =
      some (MultiIndexedTree.new "r" (0 : Nat)).size ∧
    (∃ n np,
      ((MultiIndexedTree.new "r" (0 : Nat)).insert "r" "c" 1).2.arena
        (MultiIndexedTree.new "r" (0 : Nat)).size = some n ∧ n.value = 1 ∧
      n.parent = some 0 ∧
      ((MultiIndexedTree.new "r" (0 : Nat)).insert "r" "c" 1).2.arena 0 = some np ∧
      np.key = "r") :=
  insert_then_find ⟨"r", 0, [], rfl⟩
    (show (MultiIndexedTree.new "r" (0 : Nat)).find "r" = some 0 by decide) "c" 1

/-- Children lists only grow under the arena surgery performed by a
successful `insert`: the fresh node is a leaf and the parent's list is
extended on the right. -/
theorem insert_children_sub [DecidableEq K] {t : MultiIndexedTree K T} (hwf : WF t)
    {pid : Nat} {npd : Node K T} (hpd : t.arena pid = some npd) (hpid : pid ≠ t.size)
    (nfresh : Node K T) :
    ∀ i, childrenOf t.arena i ⊆ childrenOf
      (fun j => if j = t.size then some nfresh
        else if j = pid then some { npd with children := npd.children ++ [t.size] }
        else t.arena j) i := by
  intro i x hx
  obtain ⟨n1, hn1, hmem⟩ := mem_childrenOf_elim hx
  by_cases hi : i = t.size
  · subst i
    rw [hwf.awf.none_of_le (Nat.le_refl _)] at hn1
    cases hn1
  · by_cases hip : i = pid
    · subst i
      rw [hpd] at hn1
      cases hn1
      have hApid : (fun j => if j = t.size then some nfresh
          else if j = pid then some { npd with children := npd.children ++ [t.size] }
          else t.arena j) pid = some { npd with children := npd.children ++ [t.size] } := by
        simp [hpid]
      rw [childrenOf_eq_of_some hApid]
      exact List.mem_append_left _ hmem
    · have hAi : (fun j => if j = t.size then some nfresh
          else if j = pid then some { npd with children := npd.children ++ [t.size] }
          else t.arena j) i = some n1 := by
        simp only [if_neg hi, if_neg hip]
        exact hn1
      rw [childrenOf_eq_of_some hAi]
      exact hmem

/-- C6: inserting under a present parent key with a key `k` that already
belongs to a node succeeds, remaps the primary index entry for `k` to the
freshly allocated node, and leaves the old node in place: its key, value,
parent pointer and cached position are unchanged, it still occupies its
original slot in its parent's children list, and it remains reachable from
the root through the children lists — but no key of the primary index
resolves to it any more. -/
theorem insert_duplicate_key [DecidableEq K] {t : MultiIndexedTree K T}
    (h : Reachable t) {p : K} {pid : Nat} (hp : t.find p = some pid)
    {k : K} {oid : Nat} (hk : t.find k = some oid) (v : T) :
    (t.insert p k v).1 = Except.ok () ∧
    (t.insert p k v).2.find k = some t.size ∧
    oid ≠ t.size ∧
    (∃ n n', t.arena oid = some n ∧ (t.insert p k v).2.arena oid = some n' ∧
      n'.key = n.key ∧ n'.value = n.value ∧ n'.parent = n.parent ∧ n'.index = n.index ∧
      (∀ q, n.parent = some q → ∃ np2, (t.insert p k v).2.arena q = some np2 ∧
        np2.children[n.index]? = some oid)) ∧
    Reach (t.insert p k v).2.arena (t.insert p k v).2.root oid ∧
    (∀ k', (t.insert p k v).2.find k' ≠ some oid) := by
  have hwf := h.wf
  rw [MultiIndexedTree.find] at hp hk
  obtain ⟨npd, hpd, hpdkey⟩ := hwf.key_con p pid hp
  obtain ⟨nod, hod, hodkey⟩ := hwf.key_con k oid hk
  have hpid : pid ≠ t.size := by
    have := hwf.awf.lt_of_some hpd
    omega
  have hoid : oid ≠ t.size := by
    have := hwf.awf.lt_of_some hod
    omega
  rw [insert_eq hp hpd hpid k v]
  have hatt : ∀ q, nod.parent = some q →
      ∃ np2, (fun j =>
          if j = t.size then some (⟨[], npd.children.length, some pid, v, k⟩ : Node K T)
          else if j = pid then some { npd with children := npd.children ++ [t.size] }
          else t.arena j) q = some np2 ∧ np2.children[nod.index]? = some oid := by
    intro q hq
    obtain ⟨np0, hq0, hchild⟩ := hwf.awf.par oid nod hod q hq
    have hqlt : q < t.size := hwf.awf.lt_of_some hq0
    have hqs : q ≠ t.size := by omega
    by_cases hqp : q = pid
    · subst q
      rw [hpd] at hq0
      cases hq0
      refine ⟨{ npd with children := npd.children ++ [t.size] }, by simp [hpid], ?_⟩
      have hb : nod.index < npd.children.length := by
        obtain ⟨hh, -⟩ := List.getElem?_eq_some_iff.mp hchild
        exact hh
      show (npd.children ++ [t.size])[nod.index]? = some oid
      rw [List.getElem?_append_left hb]
      exact hchild
    · refine ⟨np0, ?_, hchild⟩
      simp only [if_neg hqs, if_neg hqp]
      exact hq0
  refine ⟨rfl, ?_, hoid, ?_, ?_, ?_⟩
  · show mapLookup (mapInsert (mapErase t.index k) k t.size) k = some t.size
    exact mapLookup_mapInsert_self _ _ _
  · by_cases hop : oid = pid
    · subst oid
      rw [hpd] at hod
      cases hod
      refine ⟨npd, { npd with children := npd.children ++ [t.size] }, hpd,
        by simp [hpid], rfl, rfl, rfl, rfl, hatt⟩
    · refine ⟨nod, nod, hod, ?_, rfl, rfl, rfl, rfl, hatt⟩
      simp only [if_neg hoid, if_neg hop]
      exact hod
  · show Reach (fun j =>
        if j = t.size then some (⟨[], npd.children.length, some pid, v, k⟩ : Node K T)
        else if j = pid then some { npd with children := npd.children ++ [t.size] }
        else t.arena j) t.root oid
    exact reach_mono (insert_children_sub hwf hpd hpid _) (hwf.idx_reach k oid hk)
  · intro k' hcon
    by_cases hkk : k' = k
    · subst k'
      have h1 : mapLookup (mapInsert (mapErase t.index k) k t.size) k = some oid := hcon
      rw [mapLookup_mapInsert_self] at h1
      exact hoid (Option.some.inj h1).symm
    · have h1 : mapLookup (mapInsert (mapErase t.index k) k t.size) k' = some oid := hcon
      rw [mapLookup_mapInsert_ne _ _ hkk, mapLookup_mapErase_ne _ hkk] at h1
      obtain ⟨n2, hn2, hn2key⟩ := hwf.key_con k' oid h1
      rw [hod] at hn2
      injection hn2 with he
      exact hkk (by rw [← hn2key, ← he]; exact hodkey)

/-- Witness for C6: on the two-node tree with keys `"r"` and `"c"`,
re-inserting key `"c"` under `"r"` exhibits every conjunct of
`insert_duplicate_key` at the old node id `1`. -/
theorem insert_duplicate_key_witness :
    ((applyOps (MultiIndexedTree.new "r" (0 : Nat)) [Op.insert "r" "c" 1]).insert "r" "c" 2).1 =
      Except.ok () ∧
    ((applyOps (MultiIndexedTree.new "r" (0 : Nat)) [Op.insert "r" "c" 1]).insert "r" "c" 2).2.find
        "c" =
      some (applyOps (MultiIndexedTree.new "r" (0 : Nat)) [Op.insert "r" "c" 1]).size ∧
    (1 : Nat) ≠ (applyOps (MultiIndexedTree.new "r" (0 : Nat)) [Op.insert "r" "c" 1]).size ∧
    (∃ n n', (applyOps (MultiIndexedTree.new "r" (0 : Nat)) [Op.insert "r" "c" 1]).arena 1 =
        some n ∧
      ((applyOps (MultiIndexedTree.new "r" (0 : Nat))
          [Op.insert "r" "c" 1]).insert "r" "c" 2).2.arena 1 = some n' ∧
      n'.key = n.key ∧ n'.value = n.value ∧ n'.parent = n.parent ∧ n'.index = n.index ∧
      (∀ q, n.parent = some q → ∃ np2,
        ((applyOps (MultiIndexedTree.new "r" (0 : Nat))
            [Op.insert "r" "c" 1]).insert "r" "c" 2).2.arena q = some np2 ∧
        np2.children[n.index]? = some 1)) ∧
    Reach ((applyOps (MultiIndexedTree.new "r" (0 : Nat))
        [Op.insert "r" "c" 1]).insert "r" "c" 2).2.arena
      ((applyOps (MultiIndexedTree.new "r" (0 : Nat))
        [Op.insert "r" "c" 1]).insert "r" "c" 2).2.root 1 ∧
    (∀ k', ((applyOps (MultiIndexedTree.new "r" (0 : Nat))
        [Op.insert "r" "c" 1]).insert "r" "c" 2).2.find k' ≠ some 1) :=
  insert_duplicate_key ⟨"r", 0, [Op.insert "r" "c" 1], rfl⟩
    (show (applyOps (MultiIndexedTree.new "r" (0 : Nat)) [Op.insert "r" "c" 1]).find "r" =
      some 0 by decide)
    (show (applyOps (MultiIndexedTree.new "r" (0 : Nat)) [Op.insert "r" "c" 1]).find "c" =
      some 1 by decide) 2

/-- C5: when `k` is present in the primary index, `remove k` returns `Ok`
and afterwards `find k`, and `find` of the key of every node of the removed
subtree (every node reachable from `k`'s node), return nothing; when `k` is
absent, `remove k` returns the `Key not found` error and leaves the tree
unchanged. -/
theorem remove_spec [DecidableEq K] {t : MultiIndexedTree K T} (h : Reachable t) (k : K) :
    (∀ id, t.find k = some id →
      (t.remove k).1 = Except.ok () ∧
      (t.remove k).2.find k = none ∧
      (∀ d nd, Reach t.arena id d → t.arena d = some nd →
        (t.remove k).2.find nd.key = none)) ∧
    (t.find k = none → t.remove k = (Except.error "Key not found", t)) := by
  have hwf := h.wf
  constructor
  · intro id hid0
    rw [MultiIndexedTree.find] at hid0
    obtain ⟨n, hid, hkey⟩ := hwf.key_con k id hid0
    have hbind : (t.arena id).bind Node.parent = n.parent := by rw [hid]; rfl
    have hmain : (t.remove k).1 = Except.ok () ∧
        ∀ k', (t.remove k).2.find k' =
          if k' ∈ subKeys t.arena t.size id then none else mapLookup t.index k' := by
      cases hpar : n.parent with
      | none =>
        have heq : t.remove k = (Except.ok (), ⟨t.size, t.arena, t.root,
            (subKeys t.arena t.size id).foldl (fun m k => mapErase m k) t.index,
            t.secondary_index⟩) := by
          simp only [MultiIndexedTree.remove, hid0, Node.detach, hbind, hpar]
        rw [heq]
        refine ⟨rfl, fun k' => ?_⟩
        show mapLookup ((subKeys t.arena t.size id).foldl
          (fun m k => mapErase m k) t.index) k' = _
        exact mapLookup_eraseAll _ _ _
      | some p =>
        have hplt : p < id := by
          obtain ⟨np, hpa, hget⟩ := hwf.awf.par id n hid p hpar
          exact (hwf.awf.child_gt p np hpa id (List.getElem?_mem hget)).1
        have hks : subKeys (Node.abandon t.arena p id) t.size id =
            subKeys t.arena t.size id := by
          refine subKeys_congr (fun i nn hi c hc => (hwf.awf.child_gt i nn hi c hc).1)
            t.size id (fun j hj => abandon_agree_ne j ?_)
          omega
        have heq : t.remove k = (Except.ok (), ⟨t.size, Node.abandon t.arena p id, t.root,
            (subKeys (Node.abandon t.arena p id) t.size id).foldl
              (fun m k => mapErase m k) t.index,
            t.secondary_index⟩) := by
          simp only [MultiIndexedTree.remove, hid0, Node.detach, hbind, hpar]
        rw [heq]
        refine ⟨rfl, fun k' => ?_⟩
        show mapLookup ((subKeys (Node.abandon t.arena p id) t.size id).foldl
          (fun m k => mapErase m k) t.index) k' = _
        rw [hks]
        exact mapLookup_eraseAll _ _ _
    refine ⟨hmain.1, ?_, ?_⟩
    · rw [hmain.2 k]
      have hmem : k ∈ subKeys t.arena t.size id := by
        have := mem_subKeys_complete hwf.awf t.size id id n Reach.refl hid (by omega)
        rwa [hkey] at this
      rw [if_pos hmem]
    · intro d nd hreach hnd
      rw [hmain.2 nd.key]
      have hmem : nd.key ∈ subKeys t.arena t.size id :=
        mem_subKeys_complete hwf.awf t.size id d nd hreach hnd (by omega)
      rw [if_pos hmem]
  · intro hnone
    rw [MultiIndexedTree.find] at hnone
    simp [MultiIndexedTree.remove, hnone]

/-- Witness for C5 on the singleton tree: removing the only key exercises
the present-key branch (the absent-key branch holds vacuously there). -/
theorem remove_spec_witness :
    (∀ id, (MultiIndexedTree.new "r" (0 : Nat)).find "r" = some id →
      ((MultiIndexedTree.new "r" (0 : Nat)).remove "r").1 = Except.ok () ∧
      ((MultiIndexedTree.new "r" (0 : Nat)).remove "r").2.find "r" = none ∧
      (∀ d nd, Reach (MultiIndexedTree.new "r" (0 : Nat)).arena id d →
        (MultiIndexedTree.new "r" (0 : Nat)).arena d = some nd →
        ((MultiIndexedTree.new "r" (0 : Nat)).remove "r").2.find nd.key = none)) ∧
    ((MultiIndexedTree.new "r" (0 : Nat)).find "r" = none →
      (MultiIndexedTree.new "r" (0 : Nat)).remove "r" =
        (Except.error "Key not found", MultiIndexedTree.new "r" (0 : Nat))) :=
  remove_spec ⟨"r", 0, [], rfl⟩ "r"

/-- `insert` never touches the secondary index. -/
theorem insert_secondary_index [DecidableEq K] (t : MultiIndexedTree K T) (p k : K) (v : T) :
    (t.insert p k v).2.secondary_index = t.secondary_index := by
  cases h : mapLookup t.index p <;> simp [MultiIndexedTree.insert, h]

/-- `remove` never touches the secondary index. -/
theorem remove_secondary_index [DecidableEq K] (t : MultiIndexedTree K T) (k : K) :
    (t.remove k).2.secondary_index = t.secondary_index := by
  cases h : mapLookup t.index k <;> simp [MultiIndexedTree.remove, h]

/-- Effect of one `add_to_secondary_index` call on a tag lookup: the key is
appended to the tag's list (created empty when the tag is new); other tags
are untouched. -/
theorem secondary_lookup_addTag [DecidableEq K] (t : MultiIndexedTree K T)
    (tag tag' : String) (k : K) :
    mapLookup (t.add_to_secondary_index tag' k).secondary_index tag =
      if tag' = tag then some ((mapLookup t.secondary_index tag).getD [] ++ [k])
      else mapLookup t.secondary_index tag := by
  by_cases h : tag' = tag
  · subst h
    cases hl : mapLookup t.secondary_index tag' with
    | none =>
      simp [MultiIndexedTree.add_to_secondary_index, hl, mapLookup_mapInsert_self]
    | some l =>
      simp [MultiIndexedTree.add_to_secondary_index, hl, mapLookup_mapInsert_self]
  · have h' : tag ≠ tag' := fun hh => h hh.symm
    cases hl : mapLookup t.secondary_index tag' with
    | none =>
      simp [MultiIndexedTree.add_to_secondary_index, hl, mapLookup_mapInsert_ne _ _ h', h]
    | some l =>
      simp [MultiIndexedTree.add_to_secondary_index, hl, mapLookup_mapInsert_ne _ _ h', h]

/-- Running a sequence of operations leaves a tag's secondary-index entry
untouched when no operation registers the tag, and otherwise appends the
registered keys in order to the (possibly newly created) entry. -/
theorem secondary_lookup_applyOps [DecidableEq K] (tag : String) :
    ∀ (ops : List (Op K T)) (t : MultiIndexedTree K T),
      mapLookup (applyOps t ops).secondary_index tag =
        if tagKeys tag ops = [] then mapLookup t.secondary_index tag
        else some ((mapLookup t.secondary_index tag).getD [] ++ tagKeys tag ops) := by
  intro ops
  induction ops with
  | nil => intro t; simp [applyOps, tagKeys]
  | cons op ops ih =>
    intro t
    have hstep : applyOps t (op :: ops) = applyOps (applyOp t op) ops := rfl
    rw [hstep, ih]
    cases op with
    | insert p k v =>
      have hsec : (applyOp t (Op.insert p k v)).secondary_index = t.secondary_index :=
        insert_secondary_index t p k v
      rw [hsec]
      rfl
    | remove k =>
      have hsec : (applyOp t (Op.remove k)).secondary_index = t.secondary_index :=
        remove_secondary_index t k
      rw [hsec]
      rfl
    | addTag tag' k =>
      have hsec : (applyOp t (Op.addTag tag' k)).secondary_index =
          (t.add_to_secondary_index tag' k).secondary_index := rfl
      rw [hsec]
      by_cases htag : tag' = tag
      · rw [show tagKeys tag (Op.addTag tag' k :: ops) = k :: tagKeys tag ops by
          simp [tagKeys, htag]]
        rw [secondary_lookup_addTag, if_pos htag]
        by_cases hnil : tagKeys tag ops = []
        · rw [if_pos hnil, if_neg (by simp), hnil]
        · rw [if_neg hnil, if_neg (by simp)]
          simp [List.append_assoc]
      · rw [show tagKeys tag (Op.addTag tag' k :: ops) = tagKeys tag ops by
          simp [tagKeys, htag]]
        rw [secondary_lookup_addTag, if_neg htag]

/-- C7: on any tree built by `new` followed by a sequence of operations,
`find_by_secondary_index tag` returns nothing when no operation registered
`tag`, and otherwise returns exactly the nodes currently present in the
primary index among the tag's registered keys, in registration order
(keys whose nodes were removed are silently dropped by the
`filterMap`/`filter_map` over `find`). -/
theorem find_by_secondary_index_spec [DecidableEq K] (root_key : K) (root_value : T)
    (ops : List (Op K T)) (tag : String) :
    (applyOps (MultiIndexedTree.new root_key root_value) ops).find_by_secondary_index tag =
      if tagKeys tag ops = [] then none
      else some ((tagKeys tag ops).filterMap
        (applyOps (MultiIndexedTree.new root_key root_value) ops).find) := by
  rw [MultiIndexedTree.find_by_secondary_index, secondary_lookup_applyOps]
  have hnew : mapLookup (MultiIndexedTree.new root_key root_value :
      MultiIndexedTree K T).secondary_index tag = none := rfl
  rw [hnew]
  by_cases hnil : tagKeys tag ops = []
  · rw [if_pos hnil, if_pos hnil]
    rfl
  · rw [if_neg hnil, if_neg hnil]
    simp

/-- Description of a successful `remove`: the root, size and secondary
index are untouched, the primary index is purged of the removed subtree's
keys, and the surviving arena agrees with the old one on every node's key. -/
theorem remove_eq [DecidableEq K] {t : MultiIndexedTree K T} (hwf : WF t) {k : K} {id : Nat}
    (hlook : mapLookup t.index k = some id) :
    ∃ a1 : Arena K T,
      t.remove k = (Except.ok (), ⟨t.size, a1, t.root,
        (subKeys t.arena t.size id).foldl (fun m k => mapErase m k) t.index,
        t.secondary_index⟩) ∧
      (∀ j, (a1 j).map Node.key = (t.arena j).map Node.key) := by
  obtain ⟨n, hid, hkey⟩ := hwf.key_con k id hlook
  have hbind : (t.arena id).bind Node.parent = n.parent := by rw [hid]; rfl
  cases hpar : n.parent with
  | none =>
    refine ⟨t.arena, ?_, fun j => rfl⟩
    simp only [MultiIndexedTree.remove, hlook, Node.detach, hbind, hpar]
  | some p =>
    have hplt : p < id := by
      obtain ⟨np, hpa, hget⟩ := hwf.awf.par id n hid p hpar
      exact (hwf.awf.child_gt p np hpa id (List.getElem?_mem hget)).1
    have hks : subKeys (Node.abandon t.arena p id) t.size id =
        subKeys t.arena t.size id := by
      refine subKeys_congr (fun i nn hi c hc => (hwf.awf.child_gt i nn hi c hc).1)
        t.size id (fun j hj => abandon_agree_ne j ?_)
      omega
    refine ⟨Node.abandon t.arena p id, ?_, fun j => abandon_map_key t.arena p id j⟩
    rw [← hks]
    simp only [MultiIndexedTree.remove, hlook, Node.detach, hbind, hpar]

/-- Invariant carried along any operation sequence in which no `insert`
uses the root's key as the inserted key and no `remove` targets it: the
primary index keeps mapping the root key to the root id, and the root node
stays the only node carrying the root key. -/
theorem root_key_aux [DecidableEq K] (root_key : K) :
    ∀ (ops : List (Op K T)) (t : MultiIndexedTree K T), WF t →
      mapLookup t.index root_key = some t.root →
      (∀ id n, t.arena id = some n → n.key = root_key → id = t.root) →
      (∀ op ∈ ops, insertedKey op ≠ some root_key ∧ removedKey op ≠ some root_key) →
      mapLookup (applyOps t ops).index root_key = some (applyOps t ops).root ∧
      (∀ id n, (applyOps t ops).arena id = some n → n.key = root_key →
        id = (applyOps t ops).root) := by
  intro ops
  induction ops with
  | nil => intro t hwf h1 h2 hops; exact ⟨h1, h2⟩
  | cons op ops ih =>
    intro t hwf h1 h2 hops
    have hops' : ∀ o ∈ ops, insertedKey o ≠ some root_key ∧ removedKey o ≠ some root_key :=
      fun o ho => hops o (List.mem_cons_of_mem _ ho)
    cases op with
    | addTag tag k =>
      have hred : applyOps t (Op.addTag tag k :: ops) =
          applyOps (applyOp t (Op.addTag tag k)) ops := rfl
      rw [hred]
      exact ih _ (hwf.applyOp_pres _) h1 h2 hops'
    | insert p k v =>
      have hkne : k ≠ root_key := by
        have hx := (hops _ (List.mem_cons_self _ _)).1
        simp [insertedKey] at hx
        exact hx
      have hred : applyOps t (Op.insert p k v :: ops) =
          applyOps (applyOp t (Op.insert p k v)) ops := rfl
      rw [hred]
      cases hp : mapLookup t.index p with
      | none =>
        have ht' : applyOp t (Op.insert p k v) = t := by
          show (t.insert p k v).2 = t
          simp [MultiIndexedTree.insert, hp]
        rw [ht']
        exact ih t hwf h1 h2 hops'
      | some pid =>
        obtain ⟨npd, hpd, hpdkey⟩ := hwf.key_con p pid hp
        have hpid : pid ≠ t.size := by
          have := hwf.awf.lt_of_some hpd
          omega
        have ht' : applyOp t (Op.insert p k v) = ⟨t.size + 1,
            fun j =>
              if j = t.size then some ⟨[], npd.children.length, some pid, v, k⟩
              else if j = pid then some { npd with children := npd.children ++ [t.size] }
              else t.arena j,
            t.root,
            mapInsert (mapErase t.index k) k t.size,
            t.secondary_index⟩ := by
          show (t.insert p k v).2 = _
          rw [insert_eq hp hpd hpid k v]
        refine ih _ (hwf.applyOp_pres _) ?_ ?_ hops'
        · rw [ht']
          show mapLookup (mapInsert (mapErase t.index k) k t.size) root_key = some t.root
          rw [mapLookup_mapInsert_ne _ _ (fun hh => hkne hh.symm),
            mapLookup_mapErase_ne _ (fun hh => hkne hh.symm)]
          exact h1
        · rw [ht']
          intro id' n' hn' hkey'
          show id' = t.root
          have hn'' : (if id' = t.size then
              some (⟨[], npd.children.length, some pid, v, k⟩ : Node K T)
              else if id' = pid then some { npd with children := npd.children ++ [t.size] }
              else t.arena id') = some n' := hn'
          by_cases hi1 : id' = t.size
          · rw [if_pos hi1] at hn''
            cases hn''
            exact absurd hkey' hkne
          · by_cases hi2 : id' = pid
            · rw [if_neg hi1, if_pos hi2] at hn''
              cases hn''
              subst hi2
              exact h2 id' npd hpd hkey'
            · rw [if_neg hi1, if_neg hi2] at hn''
              exact h2 id' n' hn'' hkey'
    | remove k =>
      have hkne : k ≠ root_key := by
        have hx := (hops _ (List.mem_cons_self _ _)).2
        simp [removedKey] at hx
        exact hx
      have hred : applyOps t (Op.remove k :: ops) =
          applyOps (applyOp t (Op.remove k)) ops := rfl
      rw [hred]
      cases hlook : mapLookup t.index k with
      | none =>
        have ht' : applyOp t (Op.remove k) = t := by
          show (t.remove k).2 = t
          simp [MultiIndexedTree.remove, hlook]
        rw [ht']
        exact ih t hwf h1 h2 hops'
      | some id =>
        obtain ⟨a1, hrm, hkeyfr⟩ := remove_eq hwf hlook
        have ht' : applyOp t (Op.remove k) = ⟨t.size, a1, t.root,
            (subKeys t.arena t.size id).foldl (fun m k => mapErase m k) t.index,
            t.secondary_index⟩ := by
          show (t.remove k).2 = _
          rw [hrm]
        refine ih _ (hwf.applyOp_pres _) ?_ ?_ hops'
        · rw [ht']
          show mapLookup ((subKeys t.arena t.size id).foldl
            (fun m k => mapErase m k) t.index) root_key = some t.root
          rw [mapLookup_eraseAll]
          have hnmem : root_key ∉ subKeys t.arena t.size id := by
            intro hmem
            obtain ⟨d, nd, hreach, hnd, hndk⟩ := mem_subKeys_sound hmem
            have hd : d = t.root := h2 d nd hnd hndk
            subst hd
            have hle := hwf.awf.reach_le hreach
            have hid0 : id = t.root := by
              have := hwf.root_zero
              omega
            obtain ⟨nk, hnk, hnkk⟩ := hwf.key_con k id hlook
            obtain ⟨n0, hn0, hn0k⟩ := hwf.key_con root_key t.root h1
            rw [hid0, hn0] at hnk
            cases hnk
            exact hkne (by rw [← hnkk]; exact hn0k)
          rw [if_neg hnmem]
          exact h1
        · rw [ht']
          intro id' n' hn' hkey'
          show id' = t.root
          have hn'' : a1 id' = some n' := hn'
          have hfr2 : (t.arena id').map Node.key = some n'.key := by
            rw [← hkeyfr id', hn'']
            rfl
          obtain ⟨n2, hn2, hn2k⟩ := Option.map_eq_some'.mp hfr2
          exact h2 id' n2 hn2 (by rw [hn2k]; exact hkey')

/-- C1 (amended): along every operation sequence in which no `insert` uses
the root's key as the key being inserted and no `remove` targets the root's
key, `find` of the root key keeps succeeding and keeps returning the root
node.  (Unrestricted, the claim is false: `remove(root_key)` purges the
root key from the primary index — see the counterexample.) -/
theorem find_root_key_spec [DecidableEq K] (root_key : K) (root_value : T)
    (ops : List (Op K T))
    (hops : ∀ op ∈ ops, insertedKey op ≠ some root_key ∧ removedKey op ≠ some root_key) :
    (applyOps (MultiIndexedTree.new root_key root_value) ops).find root_key =
      some (applyOps (MultiIndexedTree.new root_key root_value) ops).root := by
  have h := root_key_aux root_key ops (MultiIndexedTree.new root_key root_value)
    (WF.new_wf root_key root_value) (mapLookup_mapInsert_self _ _ _) ?_ hops
  · exact h.1
  · intro id n hn hkey
    show id = 0
    by_contra hne
    have : (MultiIndexedTree.new root_key root_value : MultiIndexedTree K T).arena id =
        none := by
      simp [MultiIndexedTree.new, hne]
    rw [this] at hn
    cases hn

/-- Witness for C1: after one child insertion (which touches neither the
root key as inserted key nor as removed key) the root key still resolves
to the root. -/
theorem find_root_key_witness :
    (applyOps (MultiIndexedTree.new "r" (0 : Nat)) [Op.insert "r" "c" 1]).find "r" =
      some (applyOps (MultiIndexedTree.new "r" (0 : Nat)) [Op.insert "r" "c" 1]).root :=
  find_root_key_spec "r" 0 [Op.insert "r" "c" 1] (by decide)

/-- Counterexample to C1 as stated: `remove` of the root key is a public
operation after which `find` of the root key returns nothing — the root's
key is removed from the primary index without the tree being discarded. -/
theorem find_root_key_counterexample :
    (applyOps (MultiIndexedTree.new "r" (0 : Nat)) [Op.remove "r"]).find "r" = none := by
  decide

/-! ### The index points at the newest node of a key -/

/-- `keyMaxP` holds for a fresh tree. -/
theorem keyMaxP_new [DecidableEq K] (root_key : K) (root_value : T) :
    keyMaxP (MultiIndexedTree.new root_key root_value) := by
  intro k id hk j n hj hkey
  have hj2 : (if j = 0 then some (⟨[], 0, none, root_value, root_key⟩ : Node K T) else none)
      = some n := hj
  by_cases h0 : j = 0
  · omega
  · rw [if_neg h0] at hj2
    cases hj2

/-- `keyMaxP` is preserved by every public operation. -/
theorem keyMax_aux [DecidableEq K] :
    ∀ (ops : List (Op K T)) (t : MultiIndexedTree K T), WF t → keyMaxP t →
      keyMaxP (applyOps t ops) := by
  intro ops
  induction ops with
  | nil => intro t _ hkm; exact hkm
  | cons op ops ih =>
    intro t hwf hkm
    have hred : applyOps t (op :: ops) = applyOps (applyOp t op) ops := rfl
    rw [hred]
    refine ih _ (hwf.applyOp_pres _) ?_
    cases op with
    | addTag tag k => exact hkm
    | insert p k v =>
      cases hp : mapLookup t.index p with
      | none =>
        have ht' : applyOp t (Op.insert p k v) = t := by
          show (t.insert p k v).2 = t
          simp [MultiIndexedTree.insert, hp]
        rw [ht']
        exact hkm
      | some pid =>
        obtain ⟨npd, hpd, hpdkey⟩ := hwf.key_con p pid hp
        have hpid : pid ≠ t.size := by
          have := hwf.awf.lt_of_some hpd
          omega
        have ht' : applyOp t (Op.insert p k v) = ⟨t.size + 1,
            fun j =>
              if j = t.size then some ⟨[], npd.children.length, some pid, v, k⟩
              else if j = pid then some { npd with children := npd.children ++ [t.size] }
              else t.arena j,
            t.root,
            mapInsert (mapErase t.index k) k t.size,
            t.secondary_index⟩ := by
          show (t.insert p k v).2 = _
          rw [insert_eq hp hpd hpid k v]
        rw [ht']
        intro k' id' hk' j n hj hkey
        have hk'2 : mapLookup (mapInsert (mapErase t.index k) k t.size) k' = some id' := hk'
        have hj2 : (if j = t.size then
            some (⟨[], npd.children.length, some pid, v, k⟩ : Node K T)
            else if j = pid then some { npd with children := npd.children ++ [t.size] }
            else t.arena j) = some n := hj
        show j ≤ id'
        by_cases hkk : k' = k
        · rw [hkk] at hk'2
          rw [mapLookup_mapInsert_self] at hk'2
          cases hk'2
          by_cases hj1 : j = t.size
          · omega
          · by_cases hjp : j = pid
            · have := hwf.awf.lt_of_some hpd
              omega
            · rw [if_neg hj1, if_neg hjp] at hj2
              have := hwf.awf.lt_of_some hj2
              omega
        · rw [mapLookup_mapInsert_ne _ _ hkk, mapLookup_mapErase_ne _ hkk] at hk'2
          by_cases hj1 : j = t.size
          · subst j
            rw [if_pos rfl] at hj2
            cases hj2
            exact absurd hkey.symm hkk
          · by_cases hjp : j = pid
            · subst j
              rw [if_neg hj1, if_pos rfl] at hj2
              cases hj2
              exact hkm k' id' hk'2 pid npd hpd hkey
            · rw [if_neg hj1, if_neg hjp] at hj2
              exact hkm k' id' hk'2 j n hj2 hkey
    | remove k =>
      cases hlook : mapLookup t.index k with
      | none =>
        have ht' : applyOp t (Op.remove k) = t := by
          show (t.remove k).2 = t
          simp [MultiIndexedTree.remove, hlook]
        rw [ht']
        exact hkm
      | some id =>
        obtain ⟨a1, hrm, hkeyfr⟩ := remove_eq hwf hlook
        have ht' : applyOp t (Op.remove k) = ⟨t.size, a1, t.root,
            (subKeys t.arena t.size id).foldl (fun m k => mapErase m k) t.index,
            t.secondary_index⟩ := by
          show (t.remove k).2 = _
          rw [hrm]
        rw [ht']
        intro k' id' hk' j n hj hkey
        have hk'2 : mapLookup ((subKeys t.arena t.size id).foldl
            (fun m k => mapErase m k) t.index) k' = some id' := hk'
        rw [mapLookup_eraseAll] at hk'2
        by_cases hmem : k' ∈ subKeys t.arena t.size id
        · rw [if_pos hmem] at hk'2
          cases hk'2
        · rw [if_neg hmem] at hk'2
          have hj2 : a1 j = some n := hj
          have hfr : (t.arena j).map Node.key = some n.key := by
            rw [← hkeyfr j, hj2]
            rfl
          obtain ⟨n2, hn2, hn2k⟩ := Option.map_eq_some'.mp hfr
          exact hkm k' id' hk'2 j n2 hn2 (by rw [hn2k]; exact hkey)

/-- Every reachable tree satisfies `keyMaxP`. -/
theorem Reachable.keyMax [DecidableEq K] {t : MultiIndexedTree K T} (h : Reachable t) :
    keyMaxP t := by
  obtain ⟨rk, rv, ops, rfl⟩ := h
  exact keyMax_aux ops _ (WF.new_wf rk rv) (keyMaxP_new rk rv)

/-! ### Association-list lemmas for the dijkstra state -/

theorem sumVals_cons {A : Type} [DecidableEq A] (e : A × Nat) (m : List (A × Nat)) :
    sumVals (e :: m) = e.2 + sumVals m := by
  simp [sumVals]

theorem sumVals_mapErase_mono {A : Type} [DecidableEq A] (m : List (A × Nat)) (k : A) :
    sumVals (mapErase m k) ≤ sumVals m := by
  induction m with
  | nil => exact Nat.le_refl _
  | cons e rest ih =>
    rw [mapErase]
    by_cases he : e.1 = k
    · rw [if_pos he, sumVals_cons]
      omega
    · rw [if_neg he, sumVals_cons, sumVals_cons]
      omega

theorem sumVals_mapErase_le {A : Type} [DecidableEq A] {m : List (A × Nat)} {k : A}
    {v : Nat} (h : mapLookup m k = some v) :
    v + sumVals (mapErase m k) ≤ sumVals m := by
  induction m with
  | nil => simp [mapLookup] at h
  | cons e rest ih =>
    rw [mapLookup] at h
    by_cases he : e.1 = k
    · rw [if_pos he] at h
      cases h
      rw [mapErase, if_pos he, sumVals_cons]
      have := sumVals_mapErase_mono rest k
      omega
    · rw [if_neg he] at h
      rw [mapErase, if_neg he, sumVals_cons, sumVals_cons]
      have := ih h
      omega

theorem sumVals_mapInsert {A : Type} [DecidableEq A] (m : List (A × Nat)) (k : A) (v : Nat) :
    sumVals (mapInsert m k v) = v + sumVals (mapErase m k) := by
  rw [mapInsert, sumVals_cons]

theorem mapLookup_mapInsert_isSome {A B : Type} [DecidableEq A] {m : List (A × B)} {k : A}
    (v : B) (hk : (mapLookup m k).isSome) (x : A) :
    (mapLookup (mapInsert m k v) x).isSome = (mapLookup m x).isSome := by
  by_cases hx : x = k
  · rw [hx, mapLookup_mapInsert_self]
    cases hmk : mapLookup m k with
    | none => rw [hmk] at hk; cases hk
    | some w => rfl
  · rw [mapLookup_mapInsert_ne _ _ hx]

theorem foldl_init_lookup [DecidableEq K] :
    ∀ (l : List (K × Nat)) (m0 : List (K × Nat)) (k : K),
      mapLookup (l.foldl (fun m e => mapInsert m e.1 usizeMax) m0) k =
        if mapLookup l k = none then mapLookup m0 k else some usizeMax := by
  intro l
  induction l with
  | nil => intro m0 k; simp [mapLookup]
  | cons e rest ih =>
    intro m0 k
    rw [List.foldl_cons, ih, mapLookup]
    by_cases he : e.1 = k
    · by_cases hr : mapLookup rest k = none <;>
        simp [hr, he, mapLookup_mapInsert_self]
    · have hne : mapLookup (mapInsert m0 e.1 usizeMax) k = mapLookup m0 k :=
        mapLookup_mapInsert_ne _ _ (fun hh => he hh.symm)
      simp [he, hne]

theorem getLast?_cons_or {α : Type} : ∀ (l : List α) (a : α),
    (a :: l).getLast? = l.getLast?.or (some a)
  | [], a => rfl
  | b :: l', a => by
    rw [List.getLast?_cons_cons, getLast?_cons_or l' b]
    cases hx : l'.getLast? <;> simp [Option.or]

theorem getLast?_mem {α : Type} {l : List α} {a : α} (h : l.getLast? = some a) : a ∈ l := by
  obtain ⟨hne, hx⟩ := List.mem_getLast?_eq_getLast (l := l) (x := a) h
  rw [hx]
  exact List.getLast_mem hne

theorem mapLookup_foldl_mapInsert {A B : Type} [DecidableEq A] (f : B → A) :
    ∀ (ps : List B) (m0 : List (A × B)) (L : A),
      mapLookup (ps.foldl (fun acc p => mapInsert acc (f p) p) m0) L =
        ((ps.filter (fun p => f p = L)).getLast?).or (mapLookup m0 L) := by
  intro ps
  induction ps with
  | nil => intro m0 L; simp [Option.or]
  | cons p ps ih =>
    intro m0 L
    rw [List.foldl_cons, ih, List.filter_cons]
    by_cases hf : f p = L
    · have hx : mapLookup (mapInsert m0 (f p) p) L = some p := by
        rw [← hf]
        exact mapLookup_mapInsert_self _ _ _
      rw [hx, if_pos (by simp [hf]), getLast?_cons_or]
      cases hgl : (ps.filter (fun q => decide (f q = L))).getLast? <;> simp [Option.or]
    · have hx : mapLookup (mapInsert m0 (f p) p) L = mapLookup m0 L :=
        mapLookup_mapInsert_ne _ _ (fun hh => hf hh.symm)
      rw [hx, if_neg (by simp [hf])]

/-! ### The dijkstra loop invariant -/

/-- One child-relaxation step of the dijkstra loop never panics on a
covered tree, preserves the loop invariant, does not increase the
termination measure, leaves the current key's distance alone, leaves the
child with a distance at most `current + 1`, only decreases distances, and
only appends to the queue. -/
theorem dijkstraChildStep_ok [DecidableEq K] {t : MultiIndexedTree K T}
    (hwf : WF t) (hkm : keyMaxP t) (hcov : Covered t) (hsize : t.size < usizeMax)
    {start_key : K} {pending : List K} {st : DState K}
    (hinv : DInvP t start_key pending st)
    {current_key : K} {id_cur : Nat} (hcur : mapLookup t.index current_key = some id_cur)
    {cd : Nat} (hcd : mapLookup st.distances current_key = some cd) (hcdf : cd ≠ usizeMax)
    {ck : K} (hck : ck ∈ childKeys t id_cur) :
    ∃ st', dijkstraChildStep current_key cd st ck = Except.ok st' ∧
      DInvP t start_key pending st' ∧
      sumVals st'.distances + st'.queue.length ≤ sumVals st.distances + st.queue.length ∧
      mapLookup st'.distances current_key = some cd ∧
      (∃ v', mapLookup st'.distances ck = some v' ∧ v' ≤ cd + 1) ∧
      (∀ k v0, mapLookup st.distances k = some v0 →
        ∃ v', mapLookup st'.distances k = some v' ∧ v' ≤ v0) ∧
      (∀ k, k ∈ st.queue → k ∈ st'.queue) := by
  obtain ⟨c, hcmem, hcmap⟩ := List.mem_filterMap.mp hck
  obtain ⟨nc, hnc, hnck⟩ := Option.map_eq_some'.mp hcmap
  obtain ⟨ncur, hncur, -⟩ := hwf.key_con current_key id_cur hcur
  have hcmem' : c ∈ ncur.children := by
    rwa [childrenOf_eq_of_some hncur] at hcmem
  have hcgt := hwf.awf.child_gt id_cur ncur hncur c hcmem'
  have hcks : (mapLookup t.index ck).isSome :=
    hcov (current_key, id_cur) (mapLookup_mem hcur) ck hck
  obtain ⟨id_ch, hid_ch⟩ := Option.isSome_iff_exists.mp hcks
  have hchle : c ≤ id_ch := hkm ck id_ch hid_ch c nc hnc hnck
  have hchlt : id_ch < t.size := by
    obtain ⟨nch, hnch, -⟩ := hwf.key_con ck id_ch hid_ch
    exact hwf.awf.lt_of_some hnch
  have hs0 : t.root < t.size := hwf.root_lt
  have hcdle : cd ≤ id_cur := by
    rcases hinv.bound current_key cd hcd with h | ⟨-, h0⟩ | ⟨id2, hid2, hle⟩
    · exact absurd h hcdf
    · omega
    · rw [hcur] at hid2
      cases hid2
      exact hle
  have hndle : cd + 1 ≤ id_ch := by omega
  have hndMax : cd + 1 < usizeMax := by omega
  have hmod : (cd + 1) % (usizeMax + 1) = cd + 1 := Nat.mod_eq_of_lt (by omega)
  have hckdom : (mapLookup st.distances ck).isSome :=
    (hinv.dom ck).mpr (Or.inl hcks)
  obtain ⟨dc, hdc⟩ := Option.isSome_iff_exists.mp hckdom
  have hstep : dijkstraChildStep current_key cd st ck =
      (if cd + 1 < dc then
        Except.ok ⟨mapInsert st.distances ck (cd + 1),
          mapInsert st.predecessors ck [current_key], st.queue ++ [ck]⟩
       else if cd + 1 = dc then
        Except.ok ⟨st.distances,
          mapInsert st.predecessors ck
            ((mapLookup st.predecessors ck).getD [] ++ [current_key]), st.queue⟩
       else Except.ok st) := by
    simp only [dijkstraChildStep, hdc, hmod]
  by_cases hlt : cd + 1 < dc
  · -- strict improvement
    rw [hstep, if_pos hlt]
    have hck_start : ck ≠ start_key := by
      intro he
      rw [he, hinv.start0] at hdc
      cases hdc
      omega
    have hck_cur : ck ≠ current_key := by
      intro he
      rw [he, hcd] at hdc
      cases hdc
      omega
    have hD_self : mapLookup (mapInsert st.distances ck (cd + 1)) ck = some (cd + 1) :=
      mapLookup_mapInsert_self _ _ _
    have hD_ne : ∀ x, x ≠ ck → mapLookup (mapInsert st.distances ck (cd + 1)) x =
        mapLookup st.distances x := fun x hx => mapLookup_mapInsert_ne _ _ hx
    have hP_self : mapLookup (mapInsert st.predecessors ck [current_key]) ck =
        some [current_key] := mapLookup_mapInsert_self _ _ _
    have hP_ne : ∀ x, x ≠ ck → mapLookup (mapInsert st.predecessors ck [current_key]) x =
        mapLookup st.predecessors x := fun x hx => mapLookup_mapInsert_ne _ _ hx
    have hmono : ∀ k v0, mapLookup st.distances k = some v0 →
        ∃ v', mapLookup (mapInsert st.distances ck (cd + 1)) k = some v' ∧ v' ≤ v0 := by
      intro k v0 h0
      by_cases hk : k = ck
      · subst hk
        have hv0 : v0 = dc := by
          rw [h0] at hdc
          exact Option.some.inj hdc
        exact ⟨cd + 1, hD_self, by omega⟩
      · exact ⟨v0, by rw [hD_ne k hk]; exact h0, Nat.le_refl _⟩
    refine ⟨_, rfl, ⟨?_, ?_, ?_, ?_, ?_, ?_, ?_, ?_, ?_, ?_, ?_⟩, ?_, ?_, ?_, hmono, ?_⟩
    · -- dom
      intro k
      show (mapLookup (mapInsert st.distances ck (cd + 1)) k).isSome ↔ _
      by_cases hk : k = ck
      · subst hk
        rw [hD_self]
        simp [hcks]
      · rw [hD_ne k hk]
        exact hinv.dom k
    · -- start0
      show mapLookup (mapInsert st.distances ck (cd + 1)) start_key = some 0
      rw [hD_ne _ (fun hh => hck_start hh.symm)]
      exact hinv.start0
    · -- bound
      intro k v hkv
      have hkv' : mapLookup (mapInsert st.distances ck (cd + 1)) k = some v := hkv
      by_cases hk : k = ck
      · subst hk
        have hv : v = cd + 1 := by
          rw [hD_self] at hkv'
          exact (Option.some.inj hkv').symm
        exact Or.inr (Or.inr ⟨id_ch, hid_ch, by omega⟩)
      · rw [hD_ne k hk] at hkv'
        exact hinv.bound k v hkv'
    · -- qfin
      intro k hkq
      have hkq' : k ∈ st.queue ++ [ck] := hkq
      by_cases hk : k = ck
      · subst hk
        exact ⟨cd + 1, hD_self, by omega⟩
      · rcases List.mem_append.mp hkq' with hmem | hmem
        · obtain ⟨v, hv, hvf⟩ := hinv.qfin k hmem
          refine ⟨v, ?_, hvf⟩
          show mapLookup (mapInsert st.distances ck (cd + 1)) k = some v
          rw [hD_ne k hk]
          exact hv
        · exact absurd (by simpa using hmem) hk
    · -- reach
      intro k v hkv hvf
      have hkv' : mapLookup (mapInsert st.distances ck (cd + 1)) k = some v := hkv
      by_cases hk : k = ck
      · subst hk
        exact KeyReach.step (hinv.reach current_key cd hcd hcdf) ⟨id_cur, hcur, hck⟩
      · rw [hD_ne k hk] at hkv'
        exact hinv.reach k v hkv' hvf
    · -- pstart
      show mapLookup (mapInsert st.predecessors ck [current_key]) start_key = none
      rw [hP_ne _ (fun hh => hck_start hh.symm)]
      exact hinv.pstart
    · -- pne
      intro k ps hps
      have hps' : mapLookup (mapInsert st.predecessors ck [current_key]) k = some ps := hps
      by_cases hk : k = ck
      · subst hk
        rw [hP_self] at hps'
        cases hps'
        simp
      · rw [hP_ne k hk] at hps'
        exact hinv.pne k ps hps'
    · -- pedge
      intro k ps hps p hp
      have hps' : mapLookup (mapInsert st.predecessors ck [current_key]) k = some ps := hps
      by_cases hk : k = ck
      · subst hk
        rw [hP_self] at hps'
        cases hps'
        have hpc : p = current_key := by simpa using hp
        rw [hpc]
        exact ⟨id_cur, hcur, hck⟩
      · rw [hP_ne k hk] at hps'
        exact hinv.pedge k ps hps' p hp
    · -- pdist
      intro k ps hps p hp
      have hps' : mapLookup (mapInsert st.predecessors ck [current_key]) k = some ps := hps
      by_cases hk : k = ck
      · subst hk
        rw [hP_self] at hps'
        cases hps'
        have hpc : p = current_key := by simpa using hp
        rw [hpc]
        refine ⟨cd, cd + 1, ?_, hD_self, by omega, by omega⟩
        show mapLookup (mapInsert st.distances k (cd + 1)) current_key = some cd
        rw [hD_ne _ (fun hh => hck_cur hh.symm)]
        exact hcd
      · rw [hP_ne k hk] at hps'
        obtain ⟨vp, vk, hvp, hvk, hvlt, hvkf⟩ := hinv.pdist k ps hps' p hp
        have hvk' : mapLookup (mapInsert st.distances ck (cd + 1)) k = some vk := by
          rw [hD_ne k hk]
          exact hvk
        by_cases hpck : p = ck
        · subst hpck
          have hvpdc : vp = dc := by
            rw [hvp] at hdc
            exact Option.some.inj hdc
          exact ⟨cd + 1, vk, hD_self, hvk', by omega, hvkf⟩
        · refine ⟨vp, vk, ?_, hvk', hvlt, hvkf⟩
          rw [hD_ne p hpck]
          exact hvp
    · -- pfin
      intro k v hkv hvf hkns
      have hkv' : mapLookup (mapInsert st.distances ck (cd + 1)) k = some v := hkv
      show (mapLookup (mapInsert st.predecessors ck [current_key]) k).isSome
      by_cases hk : k = ck
      · subst hk
        rw [hP_self]
        rfl
      · rw [hD_ne k hk] at hkv'
        rw [hP_ne k hk]
        exact hinv.pfin k v hkv' hvf hkns
    · -- relax
      intro k v hkv hvf
      have hkv' : mapLookup (mapInsert st.distances ck (cd + 1)) k = some v := hkv
      by_cases hk : k = ck
      · subst hk
        refine Or.inr (Or.inl ?_)
        show k ∈ st.queue ++ [k]
        exact List.mem_append.mpr (Or.inr (by simp))
      · rw [hD_ne k hk] at hkv'
        rcases hinv.relax k v hkv' hvf with hpd | hq | hr
        · exact Or.inl hpd
        · refine Or.inr (Or.inl ?_)
          show k ∈ st.queue ++ [ck]
          exact List.mem_append.mpr (Or.inl hq)
        · refine Or.inr (Or.inr ?_)
          intro id hid k' hk'
          obtain ⟨v', hv', hle⟩ := hr id hid k' hk'
          by_cases hk'c : k' = ck
          · subst hk'c
            refine ⟨cd + 1, hD_self, ?_⟩
            have hv'dc : v' = dc := by
              rw [hv'] at hdc
              exact Option.some.inj hdc
            omega
          · refine ⟨v', ?_, hle⟩
            rw [hD_ne k' hk'c]
            exact hv'
    · -- measure
      show sumVals (mapInsert st.distances ck (cd + 1)) + (st.queue ++ [ck]).length ≤
        sumVals st.distances + st.queue.length
      rw [sumVals_mapInsert, List.length_append]
      have h1 := sumVals_mapErase_le hdc
      simp only [List.length_singleton]
      omega
    · -- current key's distance unchanged
      show mapLookup (mapInsert st.distances ck (cd + 1)) current_key = some cd
      rw [hD_ne _ (fun hh => hck_cur hh.symm)]
      exact hcd
    · -- child distance
      exact ⟨cd + 1, hD_self, Nat.le_refl _⟩
    · -- queue monotone
      intro k hkq
      show k ∈ st.queue ++ [ck]
      exact List.mem_append.mpr (Or.inl hkq)
  · by_cases heq : cd + 1 = dc
    · -- tie: record an extra predecessor
      rw [hstep, if_neg hlt, if_pos heq]
      have hck_start : ck ≠ start_key := by
        intro he
        rw [he, hinv.start0] at hdc
        cases hdc
        omega
      have hP2_self : mapLookup (mapInsert st.predecessors ck
          ((mapLookup st.predecessors ck).getD [] ++ [current_key])) ck =
          some ((mapLookup st.predecessors ck).getD [] ++ [current_key]) :=
        mapLookup_mapInsert_self _ _ _
      have hP2_ne : ∀ x, x ≠ ck → mapLookup (mapInsert st.predecessors ck
          ((mapLookup st.predecessors ck).getD [] ++ [current_key])) x =
          mapLookup st.predecessors x := fun x hx => mapLookup_mapInsert_ne _ _ hx
      refine ⟨_, rfl, ⟨hinv.dom, hinv.start0, hinv.bound, hinv.qfin, hinv.reach,
        ?_, ?_, ?_, ?_, ?_, hinv.relax⟩, Nat.le_refl _, hcd,
        ⟨dc, hdc, by omega⟩, fun k v0 h0 => ⟨v0, h0, Nat.le_refl _⟩, fun k hk => hk⟩
      · -- pstart
        show mapLookup (mapInsert st.predecessors ck
          ((mapLookup st.predecessors ck).getD [] ++ [current_key])) start_key = none
        rw [hP2_ne _ (fun hh => hck_start hh.symm)]
        exact hinv.pstart
      · -- pne
        intro k ps hps
        have hps' : mapLookup (mapInsert st.predecessors ck
            ((mapLookup st.predecessors ck).getD [] ++ [current_key])) k = some ps := hps
        by_cases hk : k = ck
        · subst hk
          rw [hP2_self] at hps'
          cases hps'
          simp
        · rw [hP2_ne k hk] at hps'
          exact hinv.pne k ps hps'
      · -- pedge
        intro k ps hps p hp
        have hps' : mapLookup (mapInsert st.predecessors ck
            ((mapLookup st.predecessors ck).getD [] ++ [current_key])) k = some ps := hps
        by_cases hk : k = ck
        · subst hk
          rw [hP2_self] at hps'
          cases hps'
          rcases List.mem_append.mp hp with hmem | hmem
          · cases hold : mapLookup st.predecessors k with
            | none =>
              rw [hold] at hmem
              cases hmem
            | some ps0 =>
              rw [hold] at hmem
              exact hinv.pedge k ps0 hold p hmem
          · have hpc : p = current_key := by simpa using hmem
            rw [hpc]
            exact ⟨id_cur, hcur, hck⟩
        · rw [hP2_ne k hk] at hps'
          exact hinv.pedge k ps hps' p hp
      · -- pdist
        intro k ps hps p hp
        have hps' : mapLookup (mapInsert st.predecessors ck
            ((mapLookup st.predecessors ck).getD [] ++ [current_key])) k = some ps := hps
        by_cases hk : k = ck
        · subst hk
          rw [hP2_self] at hps'
          cases hps'
          rcases List.mem_append.mp hp with hmem | hmem
          · cases hold : mapLookup st.predecessors k with
            | none =>
              rw [hold] at hmem
              cases hmem
            | some ps0 =>
              rw [hold] at hmem
              exact hinv.pdist k ps0 hold p hmem
          · have hpc : p = current_key := by simpa using hmem
            rw [hpc]
            exact ⟨cd, dc, hcd, hdc, by omega, by omega⟩
        · rw [hP2_ne k hk] at hps'
          exact hinv.pdist k ps hps' p hp
      · -- pfin
        intro k v hkv hvf hkns
        show (mapLookup (mapInsert st.predecessors ck
          ((mapLookup st.predecessors ck).getD [] ++ [current_key])) k).isSome
        by_cases hk : k = ck
        · subst hk
          rw [hP2_self]
          rfl
        · rw [hP2_ne k hk]
          exact hinv.pfin k v hkv hvf hkns
    · -- no improvement
      rw [hstep, if_neg hlt, if_neg heq]
      exact ⟨st, rfl, hinv, Nat.le_refl _, hcd, ⟨dc, hdc, by omega⟩,
        fun k v0 h0 => ⟨v0, h0, Nat.le_refl _⟩, fun k hk => hk⟩

/-- Processing a list of child keys composes the per-child guarantees. -/
theorem dijkstraChildren_ok [DecidableEq K] {t : MultiIndexedTree K T}
    (hwf : WF t) (hkm : keyMaxP t) (hcov : Covered t) (hsize : t.size < usizeMax)
    {start_key : K} {pending : List K}
    {current_key : K} {id_cur : Nat} (hcur : mapLookup t.index current_key = some id_cur)
    {cd : Nat} (hcdf : cd ≠ usizeMax) :
    ∀ (cks : List K) (st : DState K), DInvP t start_key pending st →
      mapLookup st.distances current_key = some cd →
      (∀ ck ∈ cks, ck ∈ childKeys t id_cur) →
      ∃ st', dijkstraChildren current_key cd cks st = Except.ok st' ∧
        DInvP t start_key pending st' ∧
        sumVals st'.distances + st'.queue.length ≤ sumVals st.distances + st.queue.length ∧
        mapLookup st'.distances current_key = some cd ∧
        (∀ ck ∈ cks, ∃ v', mapLookup st'.distances ck = some v' ∧ v' ≤ cd + 1) ∧
        (∀ k v0, mapLookup st.distances k = some v0 →
          ∃ v', mapLookup st'.distances k = some v' ∧ v' ≤ v0) ∧
        (∀ k, k ∈ st.queue → k ∈ st'.queue) := by
  intro cks
  induction cks with
  | nil =>
    intro st hinv hcd hcks
    exact ⟨st, rfl, hinv, Nat.le_refl _, hcd, by simp,
      fun k v0 h => ⟨v0, h, Nat.le_refl _⟩, fun k h => h⟩
  | cons ck cks ih =>
    intro st hinv hcd hcks
    obtain ⟨st1, hstep, hinv1, hm1, hcd1, hckv1, hmono1, hq1⟩ :=
      dijkstraChildStep_ok hwf hkm hcov hsize hinv hcur hcd hcdf
        (hcks ck (List.mem_cons_self _ _))
    obtain ⟨st', hrun, hinv', hm', hcd', hckv', hmono', hq'⟩ :=
      ih st1 hinv1 hcd1 (fun c hc => hcks c (List.mem_cons_of_mem _ hc))
    refine ⟨st', ?_, hinv', by omega, hcd', ?_, ?_, fun k hk => hq' k (hq1 k hk)⟩
    · show dijkstraChildren current_key cd (ck :: cks) st = Except.ok st'
      simp only [dijkstraChildren, hstep]
      exact hrun
    · intro c hc
      rcases List.mem_cons.mp hc with rfl | hc'
      · obtain ⟨v1, hv1, hle1⟩ := hckv1
        obtain ⟨v', hv', hle'⟩ := hmono' _ _ hv1
        exact ⟨v', hv', by omega⟩
      · exact hckv' c hc'
    · intro k v0 h0
      obtain ⟨v1, hv1, hle1⟩ := hmono1 k v0 h0
      obtain ⟨v', hv', hle'⟩ := hmono' k v1 hv1
      exact ⟨v', hv', by omega⟩

/-- One full loop iteration (pop plus child relaxation) never panics,
restores the invariant with nothing pending, and strictly decreases the
termination measure. -/
theorem dijkstraVisit_ok [DecidableEq K] {t : MultiIndexedTree K T}
    (hwf : WF t) (hkm : keyMaxP t) (hcov : Covered t) (hsize : t.size < usizeMax)
    {start_key : K} {st : DState K} {current : K} {rest : List K}
    (hq : st.queue = current :: rest)
    (hinv : DInvP t start_key [] st) :
    ∃ st', dijkstraVisit t current ⟨st.distances, st.predecessors, rest⟩ = Except.ok st' ∧
      DInvP t start_key [] st' ∧
      sumVals st'.distances + st'.queue.length < sumVals st.distances + st.queue.length := by
  obtain ⟨cd, hcd, hcdf⟩ := hinv.qfin current (by rw [hq]; exact List.mem_cons_self _ _)
  have hinv0 : DInvP t start_key [current] ⟨st.distances, st.predecessors, rest⟩ := by
    refine ⟨hinv.dom, hinv.start0, hinv.bound, ?_, hinv.reach, hinv.pstart, hinv.pne,
      hinv.pedge, hinv.pdist, hinv.pfin, ?_⟩
    · intro k hk
      exact hinv.qfin k (by rw [hq]; exact List.mem_cons_of_mem _ hk)
    · intro k v hkv hvf
      rcases hinv.relax k v hkv hvf with hpend | hqm | hr
      · cases hpend
      · rw [hq] at hqm
        rcases List.mem_cons.mp hqm with rfl | hqm'
        · exact Or.inl (by simp)
        · exact Or.inr (Or.inl hqm')
      · exact Or.inr (Or.inr hr)
  cases hidx : mapLookup t.index current with
  | none =>
    refine ⟨⟨st.distances, st.predecessors, rest⟩, ?_, ?_, ?_⟩
    · show dijkstraVisit t current ⟨st.distances, st.predecessors, rest⟩ = _
      simp only [dijkstraVisit, hcd, hidx]
    · refine ⟨hinv0.dom, hinv0.start0, hinv0.bound, hinv0.qfin, hinv0.reach, hinv0.pstart,
        hinv0.pne, hinv0.pedge, hinv0.pdist, hinv0.pfin, ?_⟩
      intro k v hkv hvf
      rcases hinv0.relax k v hkv hvf with hpend | hqm | hr
      · have hk : k = current := by simpa using hpend
        refine Or.inr (Or.inr ?_)
        intro id hid k' hk'
        rw [hk, hidx] at hid
        cases hid
      · exact Or.inr (Or.inl hqm)
      · exact Or.inr (Or.inr hr)
    · show sumVals st.distances + rest.length < sumVals st.distances + st.queue.length
      rw [hq, List.length_cons]
      omega
  | some id_cur =>
    obtain ⟨st', hrun, hinv', hm', hcd', hckv', hmono', hq'⟩ :=
      dijkstraChildren_ok hwf hkm hcov hsize hidx hcdf (childKeys t id_cur)
        ⟨st.distances, st.predecessors, rest⟩ hinv0 hcd (fun ck hck => hck)
    have hm'' : sumVals st'.distances + st'.queue.length ≤
        sumVals st.distances + rest.length := hm'
    have hcd'' : mapLookup st'.distances current = some cd := hcd'
    refine ⟨st', ?_, ?_, ?_⟩
    · show dijkstraVisit t current ⟨st.distances, st.predecessors, rest⟩ = Except.ok st'
      simp only [dijkstraVisit, hcd, hidx]
      exact hrun
    · refine ⟨hinv'.dom, hinv'.start0, hinv'.bound, hinv'.qfin, hinv'.reach, hinv'.pstart,
        hinv'.pne, hinv'.pedge, hinv'.pdist, hinv'.pfin, ?_⟩
      intro k v hkv hvf
      rcases hinv'.relax k v hkv hvf with hpend | hqm | hr
      · have hk : k = current := by simpa using hpend
        refine Or.inr (Or.inr ?_)
        intro id hid k' hk'
        rw [hk] at hid hkv
        rw [hidx] at hid
        cases hid
        obtain ⟨v', hv', hle⟩ := hckv' k' hk'
        have hvcd : v = cd := by
          rw [hcd''] at hkv
          exact (Option.some.inj hkv).symm
        exact ⟨v', hv', by omega⟩
      · exact Or.inr (Or.inl hqm)
      · exact Or.inr (Or.inr hr)
    · show sumVals st'.distances + st'.queue.length < sumVals st.distances + st.queue.length
      rw [hq, List.length_cons]
      omega

/-- The dijkstra loop never panics on a covered tree and runs to an empty
queue, given fuel above the initial measure. -/
theorem dijkstraLoop_ok [DecidableEq K] {t : MultiIndexedTree K T}
    (hwf : WF t) (hkm : keyMaxP t) (hcov : Covered t) (hsize : t.size < usizeMax)
    {start_key : K} :
    ∀ (fuel : Nat) (st : DState K), DInvP t start_key [] st →
      sumVals st.distances + st.queue.length < fuel →
      ∃ st', dijkstraLoop t fuel st = Except.ok st' ∧ DInvP t start_key [] st' ∧
        st'.queue = [] := by
  intro fuel
  induction fuel with
  | zero => intro st _ hm; exact absurd hm (Nat.not_lt_zero _)
  | succ fuel ih =>
    intro st hinv hm
    cases hq : st.queue with
    | nil =>
      refine ⟨st, ?_, hinv, hq⟩
      simp only [dijkstraLoop, hq]
    | cons current rest =>
      obtain ⟨st1, hrun, hinv1, hm1⟩ := dijkstraVisit_ok hwf hkm hcov hsize hq hinv
      have hm1' : sumVals st1.distances + st1.queue.length < fuel := by omega
      obtain ⟨st', hloop, hinv', hq'⟩ := ih st1 hinv1 hm1'
      refine ⟨st', ?_, hinv', hq'⟩
      show dijkstraLoop t (fuel + 1) st = Except.ok st'
      rw [show dijkstraLoop t (fuel + 1) st = dijkstraLoop t fuel st1 from by
        simp only [dijkstraLoop, hq, hrun]]
      exact hloop

/-- The initial dijkstra state satisfies the loop invariant. -/
theorem dijkstra_init_inv [DecidableEq K] (t : MultiIndexedTree K T) (start_key : K) :
    DInvP t start_key []
      ⟨mapInsert (t.index.foldl (fun m e => mapInsert m e.1 usizeMax) []) start_key 0,
       [], [start_key]⟩ := by
  have hD0 : ∀ k, mapLookup (t.index.foldl (fun m e => mapInsert m e.1 usizeMax) []) k =
      if mapLookup t.index k = none then none else some usizeMax := by
    intro k
    rw [foldl_init_lookup]
    rfl
  have hself : mapLookup (mapInsert (t.index.foldl (fun m e => mapInsert m e.1 usizeMax) [])
      start_key 0) start_key = some 0 := mapLookup_mapInsert_self _ _ _
  have hne : ∀ k, k ≠ start_key → mapLookup (mapInsert (t.index.foldl
      (fun m e => mapInsert m e.1 usizeMax) []) start_key 0) k =
      if mapLookup t.index k = none then none else some usizeMax := by
    intro k hk
    rw [mapLookup_mapInsert_ne _ _ hk, hD0]
  have honly : ∀ k v, mapLookup (mapInsert (t.index.foldl
      (fun m e => mapInsert m e.1 usizeMax) []) start_key 0) k = some v →
      v ≠ usizeMax → k = start_key := by
    intro k v hkv hvf
    by_contra hk
    rw [hne k hk] at hkv
    by_cases hc : mapLookup t.index k = none
    · rw [if_pos hc] at hkv
      cases hkv
    · rw [if_neg hc] at hkv
      exact hvf (Option.some.inj hkv).symm
  refine ⟨?_, hself, ?_, ?_, ?_, rfl, ?_, ?_, ?_, ?_, ?_⟩
  · -- dom
    intro k
    by_cases hk : k = start_key
    · rw [hk]
      show (mapLookup (mapInsert (t.index.foldl (fun m e => mapInsert m e.1 usizeMax) [])
        start_key 0) start_key).isSome ↔ _
      rw [hself]
      simp
    · show (mapLookup (mapInsert (t.index.foldl (fun m e => mapInsert m e.1 usizeMax) [])
        start_key 0) k).isSome ↔ _
      rw [hne k hk]
      by_cases hc : mapLookup t.index k = none
      · rw [if_pos hc]
        constructor
        · intro h
          simp at h
        · intro h
          rcases h with h | h
          · rw [hc] at h
            simp at h
          · exact absurd h hk
      · rw [if_neg hc]
        constructor
        · intro _
          left
          cases hl : mapLookup t.index k with
          | none => exact absurd hl hc
          | some w => rfl
        · intro _
          rfl
  · -- bound
    intro k v hkv
    have hkv' : mapLookup (mapInsert (t.index.foldl (fun m e => mapInsert m e.1 usizeMax) [])
        start_key 0) k = some v := hkv
    by_cases hk : k = start_key
    · rw [hk, hself] at hkv'
      cases hkv'
      exact Or.inr (Or.inl ⟨hk, rfl⟩)
    · rw [hne k hk] at hkv'
      by_cases hc : mapLookup t.index k = none
      · rw [if_pos hc] at hkv'
        cases hkv'
      · rw [if_neg hc] at hkv'
        exact Or.inl (Option.some.inj hkv').symm
  · -- qfin
    intro k hk
    have hk' : k = start_key := by simpa using hk
    rw [hk']
    exact ⟨0, hself, by decide⟩
  · -- reach
    intro k v hkv hvf
    rw [honly k v hkv hvf]
    exact KeyReach.refl _
  · -- pne
    intro k ps hps
    simp [mapLookup] at hps
  · -- pedge
    intro k ps hps
    simp [mapLookup] at hps
  · -- pdist
    intro k ps hps
    simp [mapLookup] at hps
  · -- pfin
    intro k v hkv hvf hkns
    exact absurd (honly k v hkv hvf) hkns
  · -- relax
    intro k v hkv hvf
    refine Or.inr (Or.inl ?_)
    rw [honly k v hkv hvf]
    simp

/-- Completeness at the end of the loop: every key reachable along
`KeyEdge` from the start ends with a finite distance. -/
theorem dijkstra_complete [DecidableEq K] {t : MultiIndexedTree K T}
    (hwf : WF t) (hsize : t.size < usizeMax) {start_key : K} {st : DState K}
    (hinv : DInvP t start_key [] st) (hq : st.queue = []) :
    ∀ b, KeyReach t start_key b →
      ∃ vb, mapLookup st.distances b = some vb ∧ vb ≠ usizeMax := by
  intro b hreach
  induction hreach with
  | refl => exact ⟨0, hinv.start0, by decide⟩
  | step hab hedge ih =>
    obtain ⟨vb, hvb, hvbf⟩ := ih
    obtain ⟨id, hid, hck'⟩ := hedge
    rcases hinv.relax _ _ hvb hvbf with hpend | hqm | hrel
    · cases hpend
    · rw [hq] at hqm
      cases hqm
    · obtain ⟨v', hv', hle⟩ := hrel id hid _ hck'
      refine ⟨v', hv', ?_⟩
      rcases hinv.bound _ _ hvb with hmx | ⟨-, h0⟩ | ⟨idb, hidb, hleb⟩
      · exact absurd hmx hvbf
      · have h2 : (2 : Nat) ≤ usizeMax := by decide
        omega
      · have hblt : idb < t.size := by
          obtain ⟨nb, hnb, -⟩ := hwf.key_con _ _ hidb
          exact hwf.awf.lt_of_some hnb
        omega

/-- Every path produced by `trace_paths` from a finitely-distanced key is
the accumulator followed by a predecessor chain leading back to the start
key, reversed; and at least one path is produced. -/
theorem tracePaths_spec [DecidableEq K] {t : MultiIndexedTree K T}
    (hwf : WF t) (hsize : t.size < usizeMax) {start_key : K} {st : DState K}
    (hinv : DInvP t start_key [] st) :
    ∀ (fuel : Nat) (key : K) (vk : Nat) (acc : List K),
      mapLookup st.distances key = some vk → vk ≠ usizeMax → vk < fuel →
      tracePaths st.predecessors fuel key acc ≠ [] ∧
      ∀ q ∈ tracePaths st.predecessors fuel key acc, ∃ ext : List K,
        q = (acc ++ key :: ext).reverse ∧
        List.Chain' (fun a b => KeyEdge t b a) (key :: ext) ∧
        (key :: ext).getLast? = some start_key := by
  intro fuel
  induction fuel with
  | zero =>
    intro key vk acc hvk hvkf hlt
    exact absurd hlt (Nat.not_lt_zero _)
  | succ fuel ih =>
    intro key vk acc hvk hvkf hlt
    cases hpk : mapLookup st.predecessors key with
    | none =>
      have hkey_start : key = start_key := by
        by_contra hne
        have hf := hinv.pfin key vk hvk hvkf hne
        rw [hpk] at hf
        simp at hf
      constructor
      · simp [tracePaths, hpk]
      · intro q hq
        have hqe : q = (acc ++ [key]).reverse := by
          simpa [tracePaths, hpk] using hq
        refine ⟨[], by simpa using hqe, List.chain'_singleton _, ?_⟩
        rw [hkey_start]
        rfl
    | some ps =>
      have hps_ne : ps ≠ [] := hinv.pne key ps hpk
      have hpred : ∀ p ∈ ps, ∃ vp, mapLookup st.distances p = some vp ∧
          vp ≠ usizeMax ∧ vp < fuel ∧ KeyEdge t p key := by
        intro p hp
        obtain ⟨vp, vk', hvp, hvk', hplt, hvk'f⟩ := hinv.pdist key ps hpk p hp
        have hvkk : vk' = vk := by
          rw [hvk] at hvk'
          exact (Option.some.inj hvk').symm
        have hvkMax : vk ≤ usizeMax := by
          rcases hinv.bound key vk hvk with hmx | ⟨-, h0⟩ | ⟨idb, hidb, hleb⟩
          · omega
          · omega
          · have hblt : idb < t.size := by
              obtain ⟨nb, hnb, -⟩ := hwf.key_con _ _ hidb
              exact hwf.awf.lt_of_some hnb
            omega
        exact ⟨vp, hvp, by omega, by omega, hinv.pedge key ps hpk p hp⟩
      constructor
      · intro hnil
        have hnil' : ps.flatMap (fun pr => tracePaths st.predecessors fuel pr (acc ++ [key]))
            = [] := by
          simpa [tracePaths, hpk] using hnil
        obtain ⟨p0, hp0⟩ := List.exists_mem_of_ne_nil ps hps_ne
        obtain ⟨vp, hvp, hvpf, hvplt, -⟩ := hpred p0 hp0
        have hne0 := (ih p0 vp (acc ++ [key]) hvp hvpf hvplt).1
        rw [List.flatMap_eq_nil_iff] at hnil'
        exact hne0 (hnil' p0 hp0)
      · intro q hq
        have hq' : q ∈ ps.flatMap (fun pr => tracePaths st.predecessors fuel pr
            (acc ++ [key])) := by
          simpa [tracePaths, hpk] using hq
        obtain ⟨pr, hpr, hqr⟩ := List.mem_flatMap.mp hq'
        obtain ⟨vp, hvp, hvpf, hvplt, hedge⟩ := hpred pr hpr
        obtain ⟨ext', hqe, hchain, hlast⟩ := (ih pr vp (acc ++ [key]) hvp hvpf hvplt).2 q hqr
        refine ⟨pr :: ext', ?_, ?_, ?_⟩
        · rw [hqe]
          simp [List.append_assoc]
        · exact List.chain'_cons.mpr ⟨hedge, hchain⟩
        · rw [List.getLast?_cons_cons]
          exact hlast

/-- Running the loop from the initial dijkstra state with the fuel the
source-level function chooses reaches an empty queue without panicking. -/
theorem dijkstra_run [DecidableEq K] {t : MultiIndexedTree K T}
    (hwf : WF t) (hkm : keyMaxP t) (hcov : Covered t) (hsize : t.size < usizeMax)
    (start_key : K) :
    ∃ st', dijkstraLoop t
        (sumVals (mapInsert (t.index.foldl (fun m e => mapInsert m e.1 usizeMax) [])
          start_key 0) + 2)
        ⟨mapInsert (t.index.foldl (fun m e => mapInsert m e.1 usizeMax) []) start_key 0,
         [], [start_key]⟩ = Except.ok st' ∧
      DInvP t start_key [] st' ∧ st'.queue = [] := by
  refine dijkstraLoop_ok hwf hkm hcov hsize _ _ (dijkstra_init_inv t start_key) ?_
  show sumVals (mapInsert (t.index.foldl (fun m e => mapInsert m e.1 usizeMax) [])
      start_key 0) + ([start_key] : List K).length <
    sumVals (mapInsert (t.index.foldl (fun m e => mapInsert m e.1 usizeMax) [])
      start_key 0) + 2
  rw [List.length_singleton]
  omega

/-- Rewriting `dijkstra_shortest_paths` through a known loop result. -/
theorem dijkstra_eq_of_loop [DecidableEq K] {t : MultiIndexedTree K T} {start_key : K}
    {st' : DState K}
    (hloop : dijkstraLoop t
        (sumVals (mapInsert (t.index.foldl (fun m e => mapInsert m e.1 usizeMax) [])
          start_key 0) + 2)
        ⟨mapInsert (t.index.foldl (fun m e => mapInsert m e.1 usizeMax) []) start_key 0,
         [], [start_key]⟩ = Except.ok st') (end_key : K) :
    t.dijkstra_shortest_paths start_key end_key =
      (match mapLookup st'.distances end_key with
       | none => Except.error "no distance for end key"
       | some dend =>
         if dend = usizeMax then Except.ok none
         else Except.ok (some ((tracePaths st'.predecessors (usizeMax + 2) end_key []).foldl
           (fun acc p => mapInsert acc p.length p) []))) := by
  simp only [MultiIndexedTree.dijkstra_shortest_paths]
  rw [hloop]

/-- C8 (amended): on a covered tree of realistic size with start and end
keys present, `dijkstra_shortest_paths` returns without panicking; the
result is `None` exactly when the end key is unreachable from the start
key along the loop's downward edges (`KeyEdge`); and otherwise it returns
a map keyed by path length whose entry for each length is the LAST
start-to-end path of that length reconstructed by `trace_paths` — earlier
equal-length paths are overwritten.  (Unamended the claim is false: a
reachable-but-unindexed stale key makes the loop panic even with both
keys present — see the counterexample.) -/
theorem dijkstra_spec [DecidableEq K] {t : MultiIndexedTree K T} (h : Reachable t)
    (hcov : Covered t) (hsize : t.size < usizeMax) {start_key end_key : K}
    (hs : (mapLookup t.index start_key).isSome)
    (he : (mapLookup t.index end_key).isSome) :
    ∃ res, t.dijkstra_shortest_paths start_key end_key = Except.ok res ∧
      (res = none ↔ ¬ KeyReach t start_key end_key) ∧
      (∀ m, res = some m → ∃ paths : List (List K),
        paths ≠ [] ∧
        m = paths.foldl (fun acc p => mapInsert acc p.length p) [] ∧
        (∀ p ∈ paths, p.head? = some start_key ∧ p.getLast? = some end_key ∧
          List.Chain' (KeyEdge t) p) ∧
        (∀ L, mapLookup m L = (paths.filter (fun p => p.length = L)).getLast?) ∧
        (∀ L p, mapLookup m L = some p → p.length = L)) := by
  have hwf := h.wf
  have hkm := h.keyMax
  obtain ⟨st', hloop, hinv', hq'⟩ := dijkstra_run hwf hkm hcov hsize start_key
  have heq := dijkstra_eq_of_loop hloop end_key
  have hd : (mapLookup st'.distances end_key).isSome := (hinv'.dom end_key).mpr (Or.inl he)
  obtain ⟨dend, hdend⟩ := Option.isSome_iff_exists.mp hd
  by_cases hmax : dend = usizeMax
  · refine ⟨none, ?_, ?_, ?_⟩
    · rw [heq, hdend]
      simp [hmax]
    · constructor
      · intro _ hreach
        obtain ⟨vb, hvb, hvbf⟩ := dijkstra_complete hwf hsize hinv' hq' end_key hreach
        rw [hdend] at hvb
        cases hvb
        exact hvbf hmax
      · intro _
        rfl
    · intro m hm
      cases hm
  · refine ⟨some ((tracePaths st'.predecessors (usizeMax + 2) end_key []).foldl
      (fun acc p => mapInsert acc p.length p) []), ?_, ?_, ?_⟩
    · rw [heq, hdend]
      simp [hmax]
    · constructor
      · intro hcon
        simp at hcon
      · intro hnr
        exact absurd (hinv'.reach end_key dend hdend hmax) hnr
    · intro m hm
      have hm' : m = (tracePaths st'.predecessors (usizeMax + 2) end_key []).foldl
          (fun acc p => mapInsert acc p.length p) [] := (Option.some.inj hm).symm
      have hvkMax : dend ≤ usizeMax := by
        rcases hinv'.bound end_key dend hdend with hmx | ⟨-, h0⟩ | ⟨idb, hidb, hleb⟩
        · omega
        · omega
        · have hblt : idb < t.size := by
            obtain ⟨nb, hnb, -⟩ := hwf.key_con _ _ hidb
            exact hwf.awf.lt_of_some hnb
          omega
      obtain ⟨hne, hall⟩ := tracePaths_spec hwf hsize hinv' (usizeMax + 2) end_key dend []
        hdend hmax (by omega)
      refine ⟨tracePaths st'.predecessors (usizeMax + 2) end_key [], hne, hm', ?_, ?_, ?_⟩
      · intro p hp
        obtain ⟨ext, hpe, hchain, hlast⟩ := hall p hp
        have hpe' : p = (end_key :: ext).reverse := by simpa using hpe
        refine ⟨?_, ?_, ?_⟩
        · rw [hpe', List.head?_reverse]
          exact hlast
        · rw [hpe', List.getLast?_reverse]
          rfl
        · rw [hpe', List.chain'_reverse]
          exact hchain
      · intro L
        rw [hm', mapLookup_foldl_mapInsert (fun p => p.length)
          (tracePaths st'.predecessors (usizeMax + 2) end_key []) [] L]
        cases hgl : ((tracePaths st'.predecessors (usizeMax + 2) end_key []).filter
            (fun p => p.length = L)).getLast? <;>
          simp [hgl, Option.or, mapLookup]
      · intro L p hp
        rw [hm', mapLookup_foldl_mapInsert (fun p => p.length)
          (tracePaths st'.predecessors (usizeMax + 2) end_key []) [] L] at hp
        have hp' : ((tracePaths st'.predecessors (usizeMax + 2) end_key []).filter
            (fun q => q.length = L)).getLast? = some p := by
          cases hgl : ((tracePaths st'.predecessors (usizeMax + 2) end_key []).filter
              (fun q => q.length = L)).getLast? with
          | none =>
            rw [hgl] at hp
            simp [Option.or, mapLookup] at hp
          | some q =>
            rw [hgl] at hp
            have hqp : q = p := by simpa [Option.or] using hp
            rw [hqp]
        have hmem := getLast?_mem hp'
        have hmem' := List.mem_filter.mp hmem
        simpa using hmem'.2

/-- Witness for C8 on the two-node tree `"r" → "c"`: the search from
`"r"` to `"c"` returns without panicking, is non-`None` (the end is
reachable), and its entries are length-keyed start-to-end paths. -/
theorem dijkstra_spec_witness :
    ∃ res, (applyOps (MultiIndexedTree.new "r" (0 : Nat))
        [Op.insert "r" "c" 1]).dijkstra_shortest_paths "r" "c" = Except.ok res ∧
      (res = none ↔ ¬ KeyReach (applyOps (MultiIndexedTree.new "r" (0 : Nat))
        [Op.insert "r" "c" 1]) "r" "c") ∧
      (∀ m, res = some m → ∃ paths : List (List String),
        paths ≠ [] ∧
        m = paths.foldl (fun acc p => mapInsert acc p.length p) [] ∧
        (∀ p ∈ paths, p.head? = some "r" ∧ p.getLast? = some "c" ∧
          List.Chain' (KeyEdge (applyOps (MultiIndexedTree.new "r" (0 : Nat))
            [Op.insert "r" "c" 1])) p) ∧
        (∀ L, mapLookup m L = (paths.filter (fun p => p.length = L)).getLast?) ∧
        (∀ L p, mapLookup m L = some p → p.length = L)) :=
  dijkstra_spec ⟨"r", 0, [Op.insert "r" "c" 1], rfl⟩ (by decide) (by decide)
    (by decide) (by decide)

/-- Counterexample to C8 as stated: after inserting a duplicate key and
removing it, a reachable-but-unindexed stale key remains; with start and
end keys both present (and the end trivially reachable from the start)
the search panics on the stale child key instead of returning `None` or a
path map. -/
theorem dijkstra_stale_key_panic :
    (applyOps (MultiIndexedTree.new "r" (0 : Nat))
        [Op.insert "r" "c" 1, Op.insert "r" "c" 2,
         Op.remove "c"]).dijkstra_shortest_paths "r" "r" =
      Except.error "no distance for child key" ∧
    mapLookup (applyOps (MultiIndexedTree.new "r" (0 : Nat))
      [Op.insert "r" "c" 1, Op.insert "r" "c" 2, Op.remove "c"]).index "r" = some 0 ∧
    KeyReach (applyOps (MultiIndexedTree.new "r" (0 : Nat))
      [Op.insert "r" "c" 1, Op.insert "r" "c" 2, Op.remove "c"]) "r" "r" :=
  ⟨rfl, rfl, KeyReach.refl "r"⟩

/-- C10 (amended): on a covered tree of realistic size,
`dijkstra_shortest_paths` is total (returns `Ok`) whenever the start and
end keys are both in the primary index; and when the end key is absent
and differs from the start key, the unguarded `distances[end_key]`
indexing fails — modelled as the `"no distance for end key"` error.
(The corner the unamended claim misses: an absent end key EQUAL to the
start key does not panic — see the counterexample.) -/
theorem dijkstra_totality [DecidableEq K] {t : MultiIndexedTree K T} (h : Reachable t)
    (hcov : Covered t) (hsize : t.size < usizeMax) (start_key end_key : K) :
    ((mapLookup t.index start_key).isSome → (mapLookup t.index end_key).isSome →
      ∃ res, t.dijkstra_shortest_paths start_key end_key = Except.ok res) ∧
    (mapLookup t.index end_key = none → end_key ≠ start_key →
      t.dijkstra_shortest_paths start_key end_key =
        Except.error "no distance for end key") := by
  have hwf := h.wf
  have hkm := h.keyMax
  obtain ⟨st', hloop, hinv', hq'⟩ := dijkstra_run hwf hkm hcov hsize start_key
  have heq := dijkstra_eq_of_loop hloop end_key
  constructor
  · intro hs he
    have hd : (mapLookup st'.distances end_key).isSome := (hinv'.dom end_key).mpr (Or.inl he)
    obtain ⟨dend, hdend⟩ := Option.isSome_iff_exists.mp hd
    by_cases hmax : dend = usizeMax
    · refine ⟨none, ?_⟩
      rw [heq, hdend]
      simp [hmax]
    · refine ⟨some ((tracePaths st'.predecessors (usizeMax + 2) end_key []).foldl
        (fun acc p => mapInsert acc p.length p) []), ?_⟩
      rw [heq, hdend]
      simp [hmax]
  · intro hend hne
    have hd : mapLookup st'.distances end_key = none := by
      cases hd : mapLookup st'.distances end_key with
      | none => rfl
      | some v =>
        have hds : (mapLookup st'.distances end_key).isSome := by
          rw [hd]
          rfl
        rcases (hinv'.dom end_key).mp hds with h1 | h1
        · rw [hend] at h1
          simp at h1
        · exact absurd h1 hne
    rw [heq, hd]

/-- Witness for C10 on the two-node tree: both keys present, so the
search returns `Ok` (the absent-end branch holds vacuously). -/
theorem dijkstra_totality_witness :
    ((mapLookup (applyOps (MultiIndexedTree.new "r" (0 : Nat))
        [Op.insert "r" "c" 1]).index "r").isSome →
      (mapLookup (applyOps (MultiIndexedTree.new "r" (0 : Nat))
        [Op.insert "r" "c" 1]).index "c").isSome →
      ∃ res, (applyOps (MultiIndexedTree.new "r" (0 : Nat))
        [Op.insert "r" "c" 1]).dijkstra_shortest_paths "r" "c" = Except.ok res) ∧
    (mapLookup (applyOps (MultiIndexedTree.new "r" (0 : Nat))
        [Op.insert "r" "c" 1]).index "c" = none → "c" ≠ "r" →
      (applyOps (MultiIndexedTree.new "r" (0 : Nat))
        [Op.insert "r" "c" 1]).dijkstra_shortest_paths "r" "c" =
        Except.error "no distance for end key") :=
  dijkstra_totality ⟨"r", 0, [Op.insert "r" "c" 1], rfl⟩ (by decide) (by decide) "r" "c"

/-- Counterexample to C10 as stated: with the end key absent from the
primary index but EQUAL to the start key, the unguarded
`distances[end_key]` lookup does NOT fail — the start key's distance `0`
was inserted unconditionally — and the function returns a singleton path
map instead of panicking or signalling "no path". -/
theorem dijkstra_missing_end_no_panic :
    (MultiIndexedTree.new "r" (0 : Nat)).dijkstra_shortest_paths "x" "x" =
      Except.ok (some [(1, ["x"])]) ∧
    mapLookup (MultiIndexedTree.new "r" (0 : Nat)).index "x" = none :=
  ⟨rfl, rfl⟩

